import Mathlib

/-!
Verification of the client-side data layer of the Algo-scalper trading
dashboard.  The definitions below are shallow embeddings of the TypeScript
source: JavaScript `Map` objects become insertion-ordered association lists,
`Array.prototype.sort` becomes an insertion sort by the same comparator,
IEEE numbers that the code guards with `Number.isFinite` become `Option ℚ`,
date strings that the code immediately parses with `new Date(...).getTime()`
become their epoch value (`Option Nat`), and JavaScript truthiness of the
relevant fields is modelled explicitly.
-/

namespace Dashboard

/-! ### JavaScript `Map` as an insertion-ordered association list

`map.set k v` overwrites the value in place when the key is present and
appends otherwise; `Array.from(map.values())` reads the values in insertion
order.  This is exactly the behaviour of `mapSet` / `mapValues` below. -/

variable {κ : Type} {α : Type} [DecidableEq κ]

def mapSet (m : List (κ × α)) (k : κ) (v : α) : List (κ × α) :=
  match m with
  | [] => [(k, v)]
  | (k', v') :: rest => if k' = k then (k', v) :: rest else (k', v') :: mapSet rest k v

def mapValues (m : List (κ × α)) : List α := m.map Prod.snd

def mapFind (m : List (κ × α)) (k : κ) : Option α :=
  match m with
  | [] => none
  | (k', v') :: rest => if k' = k then some v' else mapFind rest k

/-- One iteration of the `for (const row of rows) if (key) map.set(key, row)` loops. -/
def mapStep (keyOf : α → Option κ) (m : List (κ × α)) (r : α) : List (κ × α) :=
  match keyOf r with
  | some k => mapSet m k r
  | none => m

def buildMap (keyOf : α → Option κ) (rows : List α) : List (κ × α) :=
  rows.foldl (mapStep keyOf) []

theorem mapFind_mapSet (m : List (κ × α)) (k k' : κ) (v : α) :
    mapFind (mapSet m k v) k' = if k = k' then some v else mapFind m k' := by
  induction m with
  | nil => simp [mapSet, mapFind]
  | cons hd tl ih =>
    obtain ⟨a, b⟩ := hd
    by_cases hak : a = k
    · subst hak
      simp only [mapSet, if_pos rfl, mapFind]
      by_cases h2 : a = k' <;> simp [h2]
    · by_cases h2 : a = k'
      · subst h2
        have hka : ¬k = a := fun h => hak h.symm
        simp [mapSet, mapFind, hak, hka]
      · simp [mapSet, mapFind, hak, h2, ih]

theorem keys_mapSet (m : List (κ × α)) (k : κ) (v : α) :
    (mapSet m k v).map Prod.fst =
      if k ∈ m.map Prod.fst then m.map Prod.fst else m.map Prod.fst ++ [k] := by
  induction m with
  | nil => simp [mapSet]
  | cons hd tl ih =>
    obtain ⟨a, b⟩ := hd
    by_cases hak : a = k
    · subst hak; simp [mapSet]
    · have hka : ¬k = a := fun h => hak h.symm
      by_cases hk : k ∈ tl.map Prod.fst <;>
        simp [mapSet, hak, hka, ih, hk, List.mem_cons]

theorem keysNodup_mapSet (m : List (κ × α)) (k : κ) (v : α)
    (h : (m.map Prod.fst).Nodup) : ((mapSet m k v).map Prod.fst).Nodup := by
  rw [keys_mapSet]
  by_cases hk : k ∈ m.map Prod.fst <;> simp [hk, h]
  exact List.Nodup.append h (List.nodup_singleton k) (by simpa using hk)

theorem mem_mapSet (m : List (κ × α)) (k : κ) (v : α) (p : κ × α)
    (h : p ∈ mapSet m k v) : p = (k, v) ∨ p ∈ m := by
  induction m with
  | nil => simpa [mapSet] using h
  | cons hd tl ih =>
    obtain ⟨a, b⟩ := hd
    by_cases hak : a = k
    · subst hak
      rcases (by simpa [mapSet] using h : p = (a, v) ∨ p ∈ tl) with h' | h'
      · exact Or.inl (by simpa using h')
      · exact Or.inr (List.mem_cons_of_mem _ h')
    · rcases (by simpa [mapSet, hak] using h : p = (a, b) ∨ p ∈ mapSet tl k v) with h' | h'
      · exact Or.inr (by simp [h'])
      · rcases ih h' with h'' | h''
        · exact Or.inl h''
        · exact Or.inr (List.mem_cons_of_mem _ h'')

theorem mapFind_of_mem (m : List (κ × α)) (k : κ) (v : α)
    (hnd : (m.map Prod.fst).Nodup) (h : (k, v) ∈ m) : mapFind m k = some v := by
  induction m with
  | nil => simp at h
  | cons hd tl ih =>
    obtain ⟨a, b⟩ := hd
    rcases List.mem_cons.mp h with h' | h'
    · obtain ⟨h1, h2⟩ := Prod.ext_iff.mp h'
      subst h1; subst h2
      simp [mapFind]
    · have hk : a ≠ k := by
        rintro rfl
        have hmem : a ∈ tl.map Prod.fst := List.mem_map.mpr ⟨(a, v), h', rfl⟩
        simp only [List.map_cons, List.nodup_cons] at hnd
        exact absurd hmem hnd.1
      simp only [List.map_cons, List.nodup_cons] at hnd
      simp [mapFind, hk, ih hnd.2 h']

theorem mem_of_mapFind (m : List (κ × α)) (k : κ) (v : α)
    (h : mapFind m k = some v) : (k, v) ∈ m := by
  induction m with
  | nil => simp [mapFind] at h
  | cons hd tl ih =>
    obtain ⟨a, b⟩ := hd
    by_cases hak : a = k
    · subst hak
      simp [mapFind] at h
      simp [h]
    · simp [mapFind, hak] at h
      exact List.mem_cons_of_mem _ (ih h)

/-! Facts about `buildMap` (processing `existing` then `incoming` is a fold
over the concatenation, by `List.foldl_append`). -/

def buildMapFrom (keyOf : α → Option κ) (m : List (κ × α)) (rows : List α) : List (κ × α) :=
  rows.foldl (mapStep keyOf) m

theorem buildMapFrom_keysNodup (keyOf : α → Option κ) (rows : List α)
    (m : List (κ × α)) (h : (m.map Prod.fst).Nodup) :
    ((buildMapFrom keyOf m rows).map Prod.fst).Nodup := by
  induction rows generalizing m with
  | nil => simpa [buildMapFrom] using h
  | cons r rest ih =>
    have : buildMapFrom keyOf m (r :: rest) = buildMapFrom keyOf (mapStep keyOf m r) rest := rfl
    rw [this]
    refine ih _ ?_
    unfold mapStep
    cases keyOf r with
    | none => exact h
    | some k => exact keysNodup_mapSet _ _ _ h

theorem buildMap_keysNodup (keyOf : α → Option κ) (rows : List α) :
    ((buildMap keyOf rows).map Prod.fst).Nodup :=
  buildMapFrom_keysNodup keyOf rows [] (by simp)

/-- Every entry of the map pairs a row with its own key. -/
theorem buildMapFrom_wf (keyOf : α → Option κ) (rows : List α) (m : List (κ × α))
    (h : ∀ p ∈ m, keyOf p.2 = some p.1) :
    ∀ p ∈ buildMapFrom keyOf m rows, keyOf p.2 = some p.1 := by
  induction rows generalizing m with
  | nil => simpa [buildMapFrom] using h
  | cons r rest ih =>
    have hrw : buildMapFrom keyOf m (r :: rest) = buildMapFrom keyOf (mapStep keyOf m r) rest := rfl
    rw [hrw]
    refine ih _ ?_
    intro p hp
    unfold mapStep at hp
    cases hk : keyOf r with
    | none => rw [hk] at hp; exact h p hp
    | some k =>
      rw [hk] at hp
      rcases mem_mapSet _ _ _ _ hp with hp' | hp'
      · subst hp'; exact hk
      · exact h p hp'

theorem buildMap_wf (keyOf : α → Option κ) (rows : List α) :
    ∀ p ∈ buildMap keyOf rows, keyOf p.2 = some p.1 :=
  buildMapFrom_wf keyOf rows [] (by simp)

/-- The value stored under a key is the last row of the input carrying that key. -/
theorem buildMapFrom_find (keyOf : α → Option κ) (rows : List α) (m : List (κ × α)) (k : κ) :
    mapFind (buildMapFrom keyOf m rows) k =
      ((rows.filter fun r => keyOf r = some k).getLast?).or (mapFind m k) := by
  induction rows generalizing m with
  | nil => simp [buildMapFrom]
  | cons r rest ih =>
    have hrw : buildMapFrom keyOf m (r :: rest) = buildMapFrom keyOf (mapStep keyOf m r) rest := rfl
    rw [hrw, ih]
    by_cases hk : keyOf r = some k
    · unfold mapStep
      rw [hk]
      have hfc : (r :: rest).filter (fun x => decide (keyOf x = some k))
          = r :: rest.filter (fun x => decide (keyOf x = some k)) := by
        simp [List.filter_cons, hk]
      rw [hfc, mapFind_mapSet, if_pos rfl]
      rw [show (r :: rest.filter fun x => decide (keyOf x = some k))
          = [r] ++ rest.filter (fun x => decide (keyOf x = some k)) from rfl,
        List.getLast?_append]
      simp [Option.or_assoc]
    · have hfc : (r :: rest).filter (fun x => decide (keyOf x = some k))
          = rest.filter (fun x => decide (keyOf x = some k)) := by
        simp [List.filter_cons, hk]
      rw [hfc]
      unfold mapStep
      cases hkr : keyOf r with
      | none => rfl
      | some k' =>
        have hkk : ¬k' = k := by rintro rfl; exact hk hkr
        rw [mapFind_mapSet, if_neg hkk]

theorem buildMap_find (keyOf : α → Option κ) (rows : List α) (k : κ) :
    mapFind (buildMap keyOf rows) k =
      (rows.filter fun r => keyOf r = some k).getLast? := by
  rw [buildMap, show rows.foldl (mapStep keyOf) [] = buildMapFrom keyOf [] rows from rfl,
    buildMapFrom_find]
  simp [mapFind]

theorem mem_values_of_find (m : List (κ × α)) (k : κ) (v : α)
    (h : mapFind m k = some v) : v ∈ mapValues m := by
  unfold mapValues
  exact List.mem_map.mpr ⟨(k, v), mem_of_mapFind m k v h, rfl⟩

theorem values_key_pairwise (keyOf : α → Option κ) (rows : List α) :
    (mapValues (buildMap keyOf rows)).Pairwise (fun a b => keyOf a ≠ keyOf b) := by
  have hnd := buildMap_keysNodup keyOf rows
  have hwf := buildMap_wf keyOf rows
  unfold mapValues
  rw [List.pairwise_map]
  have : (buildMap keyOf rows).Pairwise (fun p q => p.1 ≠ q.1) :=
    List.pairwise_map.mp hnd
  refine this.imp_of_mem ?_
  intro p q hp hq hne
  rw [hwf p hp, hwf q hq]
  simp [hne]

theorem find_of_mem_values (keyOf : α → Option κ) (rows : List α) (v : α)
    (h : v ∈ mapValues (buildMap keyOf rows)) :
    ∃ k, keyOf v = some k ∧ mapFind (buildMap keyOf rows) k = some v := by
  obtain ⟨⟨k, v'⟩, hmem, hv⟩ :=
    List.mem_map.mp (show v ∈ (buildMap keyOf rows).map Prod.snd from h)
  cases hv
  refine ⟨k, buildMap_wf keyOf rows _ hmem, ?_⟩
  exact mapFind_of_mem _ _ _ (buildMap_keysNodup keyOf rows) hmem

/-! ### `Array.prototype.sort` with a numeric comparator

The two merge helpers sort with comparators of the shape
`(a, b) => key(b) - key(a)` (descending) and `(a, b) => key(a) - key(b)`
(ascending).  We model the sort as an insertion sort for the boolean
relation `le` induced by the comparator; any correct comparison sort
produces a list sorted for `le` that is a permutation of the input, which
is all the theorems below use. -/

def insertLe (le : α → α → Bool) (x : α) : List α → List α
  | [] => [x]
  | y :: ys => if le x y then x :: y :: ys else y :: insertLe le x ys

def sortLe (le : α → α → Bool) (l : List α) : List α :=
  l.foldr (insertLe le) []

theorem insertLe_perm (le : α → α → Bool) (x : α) (l : List α) :
    (insertLe le x l).Perm (x :: l) := by
  induction l with
  | nil => simp [insertLe]
  | cons y ys ih =>
    by_cases h : le x y
    · simp [insertLe, h]
    · simp only [insertLe, h, if_false]
      exact ((ih.cons y).trans (List.Perm.swap x y ys))

theorem sortLe_perm (le : α → α → Bool) (l : List α) : (sortLe le l).Perm l := by
  induction l with
  | nil => simp [sortLe]
  | cons y ys ih =>
    exact ((insertLe_perm le y (sortLe le ys)).trans (ih.cons y))

theorem mem_sortLe (le : α → α → Bool) (l : List α) (x : α) :
    x ∈ sortLe le l ↔ x ∈ l := (sortLe_perm le l).mem_iff

theorem length_sortLe (le : α → α → Bool) (l : List α) :
    (sortLe le l).length = l.length := (sortLe_perm le l).length_eq

theorem insertLe_pairwise (le : α → α → Bool)
    (htot : ∀ a b, le a b = true ∨ le b a = true)
    (htrans : ∀ a b c, le a b = true → le b c = true → le a c = true)
    (x : α) (l : List α) (h : l.Pairwise fun a b => le a b = true) :
    (insertLe le x l).Pairwise (fun a b => le a b = true) := by
  induction l with
  | nil => simp [insertLe]
  | cons y ys ih =>
    by_cases hxy : le x y
    · simp only [insertLe, hxy, if_true]
      refine List.Pairwise.cons ?_ h
      intro b hb
      rcases List.mem_cons.mp hb with rfl | hb'
      · exact hxy
      · exact htrans x y b hxy (List.rel_of_pairwise_cons h hb')
    · simp only [insertLe, hxy, if_false]
      have hyx : le y x = true := (htot x y).resolve_left (by simpa using hxy)
      refine List.Pairwise.cons ?_ (ih (List.Pairwise.of_cons h))
      intro b hb
      rcases List.mem_cons.mp ((insertLe_perm le x ys).mem_iff.mp hb) with rfl | hb'
      · exact hyx
      · exact List.rel_of_pairwise_cons h hb'

theorem sortLe_pairwise (le : α → α → Bool)
    (htot : ∀ a b, le a b = true ∨ le b a = true)
    (htrans : ∀ a b c, le a b = true → le b c = true → le a c = true)
    (l : List α) : (sortLe le l).Pairwise (fun a b => le a b = true) := by
  induction l with
  | nil => simp [sortLe]
  | cons y ys ih => exact insertLe_pairwise le htot htrans y _ ih

/-! ### The rows of `src/lib/socket.ts`

`TradeRow.updatedAt`/`createdAt` hold the epoch value of the ISO timestamp
(`new Date(s).getTime()`), `none` when the field is absent or empty
(falsy).  `tradeId` is `none` when absent; the JS guard `if (row?.tradeId)`
additionally rejects the empty string.  `CandleRow.ts` is the candle's
timestamp string identified with its epoch value (`String(row.ts)` is the
de-duplication key and `new Date(row.ts).getTime()` the sort key; on the
backend's canonical ISO strings the two agree up to this identification),
`none` for an absent/empty (falsy) `ts`. -/

structure TradeRow where
  tradeId : Option String := none
  side : Option String := none
  status : Option String := none
  qty : Option ℚ := none
  entryPrice : Option ℚ := none
  exitPrice : Option ℚ := none
  stopLoss : Option ℚ := none
  createdAt : Option Nat := none
  updatedAt : Option Nat := none
  slippage : Option ℚ := none
  entrySlippage : Option ℚ := none
  exitSlippage : Option ℚ := none
  spread : Option ℚ := none
  mae : Option ℚ := none
  mfe : Option ℚ := none
  deriving DecidableEq

structure CandleRow where
  ts : Option Nat := none
  opn : ℚ := 0
  high : ℚ := 0
  low : ℚ := 0
  close : ℚ := 0
  volume : ℚ := 0
  deriving DecidableEq

/-- `if (row?.tradeId) map.set(String(row.tradeId), row)`: key of a trade row,
`none` when the id is absent or `""` (falsy). -/
def tradeKeyOf (r : TradeRow) : Option String :=
  match r.tradeId with
  | some s => if s = "" then none else some s
  | none => none

/-- `new Date(b.updatedAt || b.createdAt || 0).getTime()`. -/
def tradeSortKey (r : TradeRow) : Nat := (r.updatedAt.or r.createdAt).getD 0

/-- `if (row?.ts) map.set(String(row.ts), row)`. -/
def candleKeyOf (r : CandleRow) : Option Nat := r.ts

/-- `new Date(a.ts).getTime()` (0 for the unreachable absent case). -/
def candleSortKey (r : CandleRow) : Nat := r.ts.getD 0

/-- Descending comparator `(a, b) => key(b) - key(a)` of `mergeTrades`. -/
def tradeLe (a b : TradeRow) : Bool := decide (tradeSortKey b ≤ tradeSortKey a)

/-- Ascending comparator `(a, b) => key(a) - key(b)` of `mergeCandles`. -/
def candleLe (a b : CandleRow) : Bool := decide (candleSortKey a ≤ candleSortKey b)

/-- The de-duplicated values `Array.from(map.values())` in `mergeTrades`. -/
def mergedTrades (existing incoming : List TradeRow) : List TradeRow :=
  mapValues (buildMap tradeKeyOf (existing ++ incoming))

/-- `mergeTrades` from `src/lib/socket.ts`: merge by `tradeId`, sort by
recency descending, keep the first `limit` rows (`merged.slice(0, limit)`). -/
def mergeTrades (existing incoming : List TradeRow) (limit : Nat) : List TradeRow :=
  (sortLe tradeLe (mergedTrades existing incoming)).take limit

/-- The de-duplicated values `Array.from(map.values())` in `mergeCandles`. -/
def mergedCandles (existing incoming : List CandleRow) : List CandleRow :=
  mapValues (buildMap candleKeyOf (existing ++ incoming))

/-- `mergeCandles` from `src/lib/socket.ts`: merge by `ts`, sort by time
ascending, keep the last `limit` rows (`merged.slice(-limit)`; JavaScript's
`slice(-0)` returns the whole array, hence the `limit = 0` case). -/
def mergeCandles (existing incoming : List CandleRow) (limit : Nat) : List CandleRow :=
  let sorted := sortLe candleLe (mergedCandles existing incoming)
  if limit = 0 then sorted else sorted.drop (sorted.length - limit)

/-! ### Facts shared by the merge theorems -/

theorem tradeLe_total : ∀ a b : TradeRow, tradeLe a b = true ∨ tradeLe b a = true := by
  intro a b
  unfold tradeLe
  rcases le_total (tradeSortKey b) (tradeSortKey a) with h | h
  · exact Or.inl (by simpa using h)
  · exact Or.inr (by simpa using h)

theorem tradeLe_trans : ∀ a b c : TradeRow,
    tradeLe a b = true → tradeLe b c = true → tradeLe a c = true := by
  intro a b c hab hbc
  unfold tradeLe at *
  simp only [decide_eq_true_eq] at *
  omega

theorem candleLe_total : ∀ a b : CandleRow, candleLe a b = true ∨ candleLe b a = true := by
  intro a b
  unfold candleLe
  rcases le_total (candleSortKey a) (candleSortKey b) with h | h
  · exact Or.inl (by simpa using h)
  · exact Or.inr (by simpa using h)

theorem candleLe_trans : ∀ a b c : CandleRow,
    candleLe a b = true → candleLe b c = true → candleLe a c = true := by
  intro a b c hab hbc
  unfold candleLe at *
  simp only [decide_eq_true_eq] at *
  omega

theorem sortedTrades_pairwise (e i : List TradeRow) :
    (sortLe tradeLe (mergedTrades e i)).Pairwise
      (fun a b => tradeSortKey b ≤ tradeSortKey a) := by
  have := sortLe_pairwise tradeLe tradeLe_total tradeLe_trans (mergedTrades e i)
  exact this.imp (by intro a b h; simpa [tradeLe] using h)

theorem sortedCandles_pairwise (e i : List CandleRow) :
    (sortLe candleLe (mergedCandles e i)).Pairwise
      (fun a b => candleSortKey a ≤ candleSortKey b) := by
  have := sortLe_pairwise candleLe candleLe_total candleLe_trans (mergedCandles e i)
  exact this.imp (by intro a b h; simpa [candleLe] using h)

theorem mergeTrades_sublist_sorted (e i : List TradeRow) (lim : Nat) :
    (mergeTrades e i lim).Sublist (sortLe tradeLe (mergedTrades e i)) := by
  unfold mergeTrades
  exact List.take_sublist _ _

theorem mergeCandles_sublist_sorted (e i : List CandleRow) (lim : Nat) :
    (mergeCandles e i lim).Sublist (sortLe candleLe (mergedCandles e i)) := by
  unfold mergeCandles
  by_cases h : lim = 0
  · simp [h]
  · simp only [h, if_false]
    exact List.drop_sublist _ _

theorem mem_mergeTrades_values (e i : List TradeRow) (lim : Nat) (r : TradeRow)
    (h : r ∈ mergeTrades e i lim) : r ∈ mergedTrades e i :=
  (mem_sortLe _ _ _).mp ((mergeTrades_sublist_sorted e i lim).mem h)

theorem mem_mergeCandles_values (e i : List CandleRow) (lim : Nat) (r : CandleRow)
    (h : r ∈ mergeCandles e i lim) : r ∈ mergedCandles e i :=
  (mem_sortLe _ _ _).mp ((mergeCandles_sublist_sorted e i lim).mem h)

/-! ### Claim C2: de-duplication by key and re-sorting -/

/-- C2: for all input lists, `mergeTrades` returns rows with pairwise
distinct `tradeId`, sorted nonincreasingly by the `updatedAt`-falling-back-
to-`createdAt` timestamp, and `mergeCandles` returns rows with pairwise
distinct `ts`, sorted nondecreasingly by the `ts` timestamp. -/
theorem merge_dedup_sorted (et it : List TradeRow) (lt : Nat)
    (ec ic : List CandleRow) (lc : Nat) :
    ((mergeTrades et it lt).Pairwise (fun a b => a.tradeId ≠ b.tradeId)
      ∧ (mergeTrades et it lt).Pairwise (fun a b => tradeSortKey b ≤ tradeSortKey a))
    ∧ ((mergeCandles ec ic lc).Pairwise (fun a b => a.ts ≠ b.ts)
      ∧ (mergeCandles ec ic lc).Pairwise (fun a b => candleSortKey a ≤ candleSortKey b)) := by
  refine ⟨⟨?_, ?_⟩, ⟨?_, ?_⟩⟩
  · have hval : (mergedTrades et it).Pairwise (fun a b => tradeKeyOf a ≠ tradeKeyOf b) :=
      values_key_pairwise tradeKeyOf (et ++ it)
    have hsym : ∀ {x y : TradeRow}, tradeKeyOf x ≠ tradeKeyOf y → tradeKeyOf y ≠ tradeKeyOf x :=
      fun h => h.symm
    have hsorted : (sortLe tradeLe (mergedTrades et it)).Pairwise
        (fun a b => tradeKeyOf a ≠ tradeKeyOf b) :=
      ((sortLe_perm tradeLe (mergedTrades et it)).pairwise_iff hsym).mpr hval
    have hres := hsorted.sublist (mergeTrades_sublist_sorted et it lt)
    refine hres.imp ?_
    intro a b hk heq
    exact hk (by simp [tradeKeyOf, heq])
  · exact (sortedTrades_pairwise et it).sublist (mergeTrades_sublist_sorted et it lt)
  · have hval : (mergedCandles ec ic).Pairwise (fun a b => candleKeyOf a ≠ candleKeyOf b) :=
      values_key_pairwise candleKeyOf (ec ++ ic)
    have hsym : ∀ {x y : CandleRow},
        candleKeyOf x ≠ candleKeyOf y → candleKeyOf y ≠ candleKeyOf x := fun h => h.symm
    have hsorted : (sortLe candleLe (mergedCandles ec ic)).Pairwise
        (fun a b => candleKeyOf a ≠ candleKeyOf b) :=
      ((sortLe_perm candleLe (mergedCandles ec ic)).pairwise_iff hsym).mpr hval
    have hres := hsorted.sublist (mergeCandles_sublist_sorted ec ic lc)
    exact hres.imp (fun h => h)
  · exact (sortedCandles_pairwise ec ic).sublist (mergeCandles_sublist_sorted ec ic lc)

/-! ### Claim C10: the cache stays bounded by the query's limit -/

/-- C10: for every positive limit (the query limits are `Number(key) || 80`
and `Number(key) || 320`, hence ≥ 1), `mergeTrades` keeps at most `limit`
rows and every dropped row is no more recent than every kept row, and
`mergeCandles` keeps at most `limit` rows and every dropped row is no later
than every kept row. -/
theorem merge_bounded (et it : List TradeRow) (lt : Nat) (ec ic : List CandleRow) (lc : Nat)
    (hlc : 0 < lc) :
    ((mergeTrades et it lt).length ≤ lt
      ∧ ∀ a ∈ mergeTrades et it lt, ∀ b ∈ mergedTrades et it,
          b ∉ mergeTrades et it lt → tradeSortKey b ≤ tradeSortKey a)
    ∧ ((mergeCandles ec ic lc).length ≤ lc
      ∧ ∀ a ∈ mergeCandles ec ic lc, ∀ b ∈ mergedCandles ec ic,
          b ∉ mergeCandles ec ic lc → candleSortKey b ≤ candleSortKey a) := by
  constructor
  · constructor
    · unfold mergeTrades
      simp
    · intro a ha b hbval hbnot
      set s := sortLe tradeLe (mergedTrades et it) with hs
      have hb : b ∈ s := (mem_sortLe _ _ _).mpr hbval
      have hsplit : s = s.take lt ++ s.drop lt := (List.take_append_drop lt s).symm
      have hbdrop : b ∈ s.drop lt := by
        rcases List.mem_append.mp (hsplit ▸ hb) with h | h
        · exact absurd h hbnot
        · exact h
      have hpw := sortedTrades_pairwise et it
      rw [← hs, hsplit] at hpw
      exact (List.pairwise_append.mp hpw).2.2 a ha b hbdrop
  · constructor
    · unfold mergeCandles
      simp only [Nat.pos_iff_ne_zero.mp hlc, if_false]
      simp only [List.length_drop]
      omega
    · intro a ha b hbval hbnot
      set s := sortLe candleLe (mergedCandles ec ic) with hs
      have hb : b ∈ s := (mem_sortLe _ _ _).mpr hbval
      have hres : mergeCandles ec ic lc = s.drop (s.length - lc) := by
        unfold mergeCandles
        simp [Nat.pos_iff_ne_zero.mp hlc, hs]
      have hsplit : s = s.take (s.length - lc) ++ s.drop (s.length - lc) :=
        (List.take_append_drop _ s).symm
      have hbtake : b ∈ s.take (s.length - lc) := by
        rcases List.mem_append.mp (hsplit ▸ hb) with h | h
        · exact h
        · exact absurd (hres ▸ h) hbnot
      have hpw := sortedCandles_pairwise ec ic
      rw [← hs, hsplit] at hpw
      exact (List.pairwise_append.mp hpw).2.2 b hbtake a (hres ▸ ha)

/-- Closed instance discharging the positivity hypotheses of the bound theorem. -/
theorem merge_bounded_witness :
    0 < 1 ∧ (mergeTrades [] [] 1).length ≤ 1 :=
  ⟨by decide, (merge_bounded [] [] 1 [] [] 1 (by decide)).1.1⟩

/-! ### Claim C1: last write wins, corrected for the limit truncation -/

def exA : TradeRow := { tradeId := some "A", updatedAt := some 1 }
def exB : TradeRow := { tradeId := some "B", updatedAt := some 10 }
def exA2 : TradeRow := { tradeId := some "A", updatedAt := some 2 }

/-- Counterexample to C1 as stated: tradeId "A" occurs in both the existing
and the incoming list, yet with limit 1 the merge result is `[exB]` and does
not contain the incoming row for "A" at all — the truncation to `limit`
dropped it. -/
theorem merge_lww_cex :
    tradeKeyOf exA = some "A" ∧ tradeKeyOf exA2 = some "A"
    ∧ mergeTrades [exA, exB] [exA2] 1 = [exB]
    ∧ exA2 ∉ mergeTrades [exA, exB] [exA2] 1 := by
  refine ⟨by decide, by decide, ?_, ?_⟩ <;> decide

/-- C1 (amended): collisions are resolved last-write-wins up to the limit
truncation — whenever `w` is the last incoming trade row with key `k`, every
row of the merge result carrying key `k` is `w` (never the existing row),
and `w` itself is in the result whenever the de-duplicated merge fits within
the limit; likewise for candles by `ts`. -/
theorem merge_lww (et it : List TradeRow) (lt : Nat) (k : String) (w : TradeRow)
    (hw : (it.filter fun r => tradeKeyOf r = some k).getLast? = some w)
    (ec ic : List CandleRow) (lc : Nat) (n : Nat) (c : CandleRow)
    (hc : (ic.filter fun r => candleKeyOf r = some n).getLast? = some c) :
    ((∀ r ∈ mergeTrades et it lt, tradeKeyOf r = some k → r = w)
      ∧ ((mergedTrades et it).length ≤ lt → w ∈ mergeTrades et it lt))
    ∧ ((∀ r ∈ mergeCandles ec ic lc, candleKeyOf r = some n → r = c)
      ∧ ((mergedCandles ec ic).length ≤ lc → c ∈ mergeCandles ec ic lc)) := by
  have hfindT : mapFind (buildMap tradeKeyOf (et ++ it)) k = some w := by
    rw [buildMap_find, List.filter_append, List.getLast?_append, hw]
    rfl
  have hfindC : mapFind (buildMap candleKeyOf (ec ++ ic)) n = some c := by
    rw [buildMap_find, List.filter_append, List.getLast?_append, hc]
    rfl
  refine ⟨⟨?_, ?_⟩, ?_, ?_⟩
  · intro r hr hk
    have hval : r ∈ mergedTrades et it := mem_mergeTrades_values et it lt r hr
    obtain ⟨k', hk', hfind'⟩ := find_of_mem_values tradeKeyOf (et ++ it) r hval
    rw [hk] at hk'
    cases hk'
    rw [hfindT] at hfind'
    exact (Option.some.injEq .. ▸ hfind'.symm : _)
  · intro hlen
    have hwval : w ∈ mergedTrades et it := mem_values_of_find _ _ _ hfindT
    have hwsorted : w ∈ sortLe tradeLe (mergedTrades et it) := (mem_sortLe _ _ _).mpr hwval
    unfold mergeTrades
    rw [List.take_of_length_le]
    · exact hwsorted
    · rw [length_sortLe]; exact hlen
  · intro r hr hk
    have hval : r ∈ mergedCandles ec ic := mem_mergeCandles_values ec ic lc r hr
    obtain ⟨k', hk', hfind'⟩ := find_of_mem_values candleKeyOf (ec ++ ic) r hval
    rw [hk] at hk'
    cases hk'
    rw [hfindC] at hfind'
    exact (Option.some.injEq .. ▸ hfind'.symm : _)
  · intro hlen
    have hcval : c ∈ mergedCandles ec ic := mem_values_of_find _ _ _ hfindC
    have hcsorted : c ∈ sortLe candleLe (mergedCandles ec ic) := (mem_sortLe _ _ _).mpr hcval
    unfold mergeCandles
    by_cases h0 : lc = 0
    · simpa [h0] using hcsorted
    · simp only [h0, if_false]
      have : (sortLe candleLe (mergedCandles ec ic)).length - lc = 0 := by
        rw [length_sortLe]; omega
      rw [this]
      simpa using hcsorted

def cOld : CandleRow := { ts := some 7, close := 1 }
def cNew : CandleRow := { ts := some 7, close := 2 }

/-- Closed instance of the amended last-write-wins theorem at a concrete
colliding key on both data types. -/
theorem merge_lww_witness :
    ((∀ r ∈ mergeTrades [exA] [exA2] 5, tradeKeyOf r = some "A" → r = exA2)
      ∧ ((mergedTrades [exA] [exA2]).length ≤ 5 → exA2 ∈ mergeTrades [exA] [exA2] 5))
    ∧ ((∀ r ∈ mergeCandles [cOld] [cNew] 5, candleKeyOf r = some 7 → r = cNew)
      ∧ ((mergedCandles [cOld] [cNew]).length ≤ 5 → cNew ∈ mergeCandles [cOld] [cNew] 5)) :=
  merge_lww [exA] [exA2] 5 "A" exA2 (by decide) [cOld] [cNew] 5 7 cNew (by decide)

/-! ### JavaScript string helpers

`String.toUpper`-style functions from the standard library do not reduce
well in the kernel, so the JS string operations used by the dashboard are
modelled directly on the character list. -/

/-- `s.toUpperCase()` (ASCII, which is all the dashboard compares). -/
def jsToUpper (s : String) : String := String.mk (s.data.map Char.toUpper)

def startsWithChars : List Char → List Char → Bool
  | _, [] => true
  | [], _ :: _ => false
  | c :: cs, d :: ds => c = d && startsWithChars cs ds

def containsChars : List Char → List Char → Bool
  | [], sub => sub.isEmpty
  | c :: rest, sub => startsWithChars (c :: rest) sub || containsChars rest sub

/-- `s.includes(sub)`. -/
def strContainsJs (s sub : String) : Bool := containsChars s.data sub.data

/-! ### `statusBucket` and `calcTradeStats` from `src/App.tsx` -/

def statusBucket (status : Option String) : String :=
  let s := jsToUpper (status.getD "")
  if strContainsJs s "OPEN" || strContainsJs s "ACTIVE" then "open"
  else if strContainsJs s "CLOSED" || strContainsJs s "DONE" || strContainsJs s "EXIT" then
    "closed"
  else if strContainsJs s "REJECT" || strContainsJs s "CANCEL" || strContainsJs s "FAIL" then
    "rejected"
  else "other"

/-- `(t.side || "").toUpperCase()`. -/
def sideUpper (r : TradeRow) : String := jsToUpper (r.side.getD "")

/-- `tradePnl` from `src/App.tsx`: the signed PnL, `none` unless qty, entry
and exit are all finite numbers.  `calcTradeStats` computes the same
expression inline. -/
def tradePnl (r : TradeRow) : Option ℚ :=
  match r.qty, r.entryPrice, r.exitPrice with
  | some q, some e, some x =>
    some (if sideUpper r = "SELL" then (e - x) * q else (x - e) * q)
  | _, _, _ => none

structure TradeStats where
  total : Nat
  closed : Nat
  openCount : Nat
  rejected : Nat
  wins : Nat
  losses : Nat
  pnl : ℚ
  winRate : Option ℚ
  avgHoldMin : Option ℚ
  exposure : ℚ

structure ClosedAcc where
  pnl : ℚ := 0
  wins : Nat := 0
  losses : Nat := 0
  holdMs : Nat := 0
  holdCount : Nat := 0

/-- Body of the `for (const t of closed)` loop of `calcTradeStats`. -/
def closedStep (acc : ClosedAcc) (t : TradeRow) : ClosedAcc :=
  let acc1 :=
    match t.qty, t.entryPrice, t.exitPrice with
    | some q, some e, some x =>
      let raw := if sideUpper t = "SELL" then (e - x) * q else (x - e) * q
      { acc with
        pnl := acc.pnl + raw
        wins := if 0 ≤ raw then acc.wins + 1 else acc.wins
        losses := if 0 ≤ raw then acc.losses else acc.losses + 1 }
    | _, _, _ => acc
  match t.createdAt, t.updatedAt with
  | some st, some en =>
    if st ≤ en then
      { acc1 with holdMs := acc1.holdMs + (en - st), holdCount := acc1.holdCount + 1 }
    else acc1
  | _, _ => acc1

/-- Body of the exposure loop (`exposure += qty * entry` for finite fields). -/
def exposureStep (acc : ℚ) (t : TradeRow) : ℚ :=
  match t.qty, t.entryPrice with
  | some q, some e => acc + q * e
  | _, _ => acc

/-- `calcTradeStats` from `src/App.tsx`. -/
def calcTradeStats (rows : List TradeRow) : TradeStats :=
  let closed := rows.filter fun t => statusBucket t.status = "closed"
  let openRows := rows.filter fun t => statusBucket t.status = "open"
  let rejectedRows := rows.filter fun t => statusBucket t.status = "rejected"
  let exposure := rows.foldl exposureStep 0
  let acc := closed.foldl closedStep {}
  { total := rows.length
    closed := closed.length
    openCount := openRows.length
    rejected := rejectedRows.length
    wins := acc.wins
    losses := acc.losses
    pnl := acc.pnl
    winRate :=
      if closed.length = 0 then none
      else some (((acc.wins : ℚ) / closed.length) * 100)
    avgHoldMin :=
      if acc.holdCount = 0 then none
      else some (((acc.holdMs : ℚ) / acc.holdCount) / 60000)
    exposure := exposure }

/-! ### Claim C3: the win-rate formula -/

/-- The claim's notion of a winning trade: the signed PnL is defined and
nonnegative. -/
def isWinningTrade (t : TradeRow) : Bool :=
  match tradePnl t with
  | some p => decide (0 ≤ p)
  | none => false

theorem closedStep_wins (acc : ClosedAcc) (t : TradeRow) :
    (closedStep acc t).wins = acc.wins + (if isWinningTrade t then 1 else 0) := by
  unfold closedStep isWinningTrade tradePnl
  rcases t.qty with _ | q <;> rcases t.entryPrice with _ | e <;> rcases t.exitPrice with _ | x <;>
    rcases t.createdAt with _ | st <;> rcases t.updatedAt with _ | en <;>
    simp <;> split_ifs <;> simp_all

theorem closedFold_wins (l : List TradeRow) (acc : ClosedAcc) :
    (l.foldl closedStep acc).wins = acc.wins + l.countP isWinningTrade := by
  induction l generalizing acc with
  | nil => simp
  | cons t rest ih =>
    rw [List.foldl_cons, ih, closedStep_wins, List.countP_cons]
    by_cases h : isWinningTrade t
    · simp [h]; omega
    · simp [h]

/-- C3: `calcTradeStats` reports `winRate = 100 · wins / closed` over the
closed-bucket trades, `none` when there are none; a closed trade counts as
a win exactly when its signed PnL is defined and nonnegative. -/
theorem calcTradeStats_winRate (rows : List TradeRow) :
    (calcTradeStats rows).winRate =
      if (rows.filter fun t => statusBucket t.status = "closed").length = 0 then none
      else
        some (100 *
          ((rows.filter fun t => statusBucket t.status = "closed").countP isWinningTrade : ℚ) /
          (rows.filter fun t => statusBucket t.status = "closed").length) := by
  unfold calcTradeStats
  simp only [closedFold_wins]
  by_cases h : (rows.filter fun t => statusBucket t.status = "closed").length = 0 <;>
    simp only [h, if_true, if_false, ClosedAcc.wins]
  ring_nf

/-! ### The truth-analytics aggregation of `src/App.tsx`

`pickTradeNumber` scans a list of record keys for the first finite numeric
field; its result for the slippage/spread/MAE/MFE key families is modelled
as the corresponding `Option ℚ` field of `TradeRow`. -/

/-- `tradeRisk` from `src/App.tsx`: per-unit stop distance times quantity,
`none` unless qty, entry and stop are finite and the distance is positive. -/
def tradeRisk (r : TradeRow) : Option ℚ :=
  match r.qty, r.entryPrice, r.stopLoss with
  | some q, some e, some sl =>
    let perUnit := if sideUpper r = "SELL" then sl - e else e - sl
    if perUnit ≤ 0 then none else some (perUnit * q)
  | _, _, _ => none

/-- `tradeR` from `src/App.tsx` composed with the `Number.isFinite` guard of
`applyTradeMetrics`: in JS a zero risk (qty 0) makes `pnl / risk` non-finite
and the guard drops it, which is folded into `none` here. -/
def tradeR (r : TradeRow) : Option ℚ :=
  match tradePnl r, tradeRisk r with
  | some p, some risk => if risk = 0 then none else some (p / risk)
  | _, _ => none

/-- `tradeHoldMin` from `src/App.tsx`. -/
def tradeHoldMin (r : TradeRow) : Option ℚ :=
  match r.createdAt, r.updatedAt with
  | some st, some en => if en < st then none else some (((en : ℚ) - st) / 60000)
  | _, _ => none

/-- The `totalSlip` computation of `applyTradeMetrics`: a direct total
slippage field, else the sum of the entry/exit slippages when at least one
is finite (`(entrySlip || 0) + (exitSlip || 0)`). -/
def totalSlippage (r : TradeRow) : Option ℚ :=
  r.slippage.or
    (match r.entrySlippage, r.exitSlippage with
      | none, none => none
      | es, xs => some (es.getD 0 + xs.getD 0))

structure TruthMetrics where
  count : Nat := 0
  wins : Nat := 0
  pnlSum : ℚ := 0
  rSum : ℚ := 0
  rCount : Nat := 0
  rWinSum : ℚ := 0
  rWinCount : Nat := 0
  rLossSum : ℚ := 0
  rLossCount : Nat := 0
  slippageSum : ℚ := 0
  slippageCount : Nat := 0
  spreadSum : ℚ := 0
  spreadCount : Nat := 0
  maeSum : ℚ := 0
  maeCount : Nat := 0
  mfeSum : ℚ := 0
  mfeCount : Nat := 0
  holdSum : ℚ := 0
  holdCount : Nat := 0

def initTruthMetrics : TruthMetrics := {}

/-- The pnl block of `applyTradeMetrics`. -/
def applyPnlBlock (m : TruthMetrics) (r : TradeRow) : TruthMetrics :=
  match tradePnl r with
  | some p =>
    { m with
      pnlSum := m.pnlSum + p
      wins := if 0 ≤ p then m.wins + 1 else m.wins }
  | none => m

/-- The R-multiple block of `applyTradeMetrics`. -/
def applyRBlock (m : TruthMetrics) (r : TradeRow) : TruthMetrics :=
  match tradeR r with
  | some rr =>
    let m1 := { m with rSum := m.rSum + rr, rCount := m.rCount + 1 }
    if 0 ≤ rr then
      { m1 with rWinSum := m1.rWinSum + rr, rWinCount := m1.rWinCount + 1 }
    else
      { m1 with rLossSum := m1.rLossSum + rr, rLossCount := m1.rLossCount + 1 }
  | none => m

def applySlippageBlock (m : TruthMetrics) (r : TradeRow) : TruthMetrics :=
  match totalSlippage r with
  | some v => { m with slippageSum := m.slippageSum + v, slippageCount := m.slippageCount + 1 }
  | none => m

def applySpreadBlock (m : TruthMetrics) (r : TradeRow) : TruthMetrics :=
  match r.spread with
  | some v => { m with spreadSum := m.spreadSum + v, spreadCount := m.spreadCount + 1 }
  | none => m

def applyMaeBlock (m : TruthMetrics) (r : TradeRow) : TruthMetrics :=
  match r.mae with
  | some v => { m with maeSum := m.maeSum + v, maeCount := m.maeCount + 1 }
  | none => m

def applyMfeBlock (m : TruthMetrics) (r : TradeRow) : TruthMetrics :=
  match r.mfe with
  | some v => { m with mfeSum := m.mfeSum + v, mfeCount := m.mfeCount + 1 }
  | none => m

def applyHoldBlock (m : TruthMetrics) (r : TradeRow) : TruthMetrics :=
  match tradeHoldMin r with
  | some v => { m with holdSum := m.holdSum + v, holdCount := m.holdCount + 1 }
  | none => m

/-- `applyTradeMetrics` from `src/App.tsx` (the successive mutations of the
metrics record, in source order). -/
def applyTradeMetrics (m : TruthMetrics) (r : TradeRow) : TruthMetrics :=
  applyHoldBlock
    (applyMfeBlock
      (applyMaeBlock
        (applySpreadBlock
          (applySlippageBlock
            (applyRBlock (applyPnlBlock { m with count := m.count + 1 } r) r) r) r) r) r) r

def truthMetrics (rows : List TradeRow) : TruthMetrics :=
  rows.foldl applyTradeMetrics initTruthMetrics

structure TruthSummary where
  count : Nat
  winRate : Option ℚ
  avgR : Option ℚ
  expectancy : Option ℚ
  avgSlippage : Option ℚ
  avgSpread : Option ℚ
  avgMae : Option ℚ
  avgMfe : Option ℚ
  avgHoldMin : Option ℚ

/-- `buildTruthSummary` from `src/App.tsx`. -/
def buildTruthSummary (m : TruthMetrics) : TruthSummary :=
  let winRate := if m.count = 0 then none else some (((m.wins : ℚ) / m.count) * 100)
  let avgR := if m.rCount = 0 then none else some (m.rSum / m.rCount)
  let avgWinR := if m.rWinCount = 0 then none else some (m.rWinSum / m.rWinCount)
  let avgLossR := if m.rLossCount = 0 then none else some (m.rLossSum / m.rLossCount)
  let expectancy :=
    match avgWinR, avgLossR, winRate with
    | some aw, some al, some wr => some ((wr / 100) * aw + (1 - wr / 100) * al)
    | _, _, _ => none
  { count := m.count
    winRate := winRate
    avgR := avgR
    expectancy := expectancy
    avgSlippage :=
      if m.slippageCount = 0 then none else some (m.slippageSum / m.slippageCount)
    avgSpread := if m.spreadCount = 0 then none else some (m.spreadSum / m.spreadCount)
    avgMae := if m.maeCount = 0 then none else some (m.maeSum / m.maeCount)
    avgMfe := if m.mfeCount = 0 then none else some (m.mfeSum / m.mfeCount)
    avgHoldMin := if m.holdCount = 0 then none else some (m.holdSum / m.holdCount) }

/-! ### Claim C4: the expectancy formula -/

/-- The R-multiple of a trade when it is defined and nonnegative. -/
def rowWinR (r : TradeRow) : Option ℚ :=
  match tradeR r with
  | some x => if 0 ≤ x then some x else none
  | none => none

/-- The R-multiple of a trade when it is defined and negative. -/
def rowLossR (r : TradeRow) : Option ℚ :=
  match tradeR r with
  | some x => if 0 ≤ x then none else some x
  | none => none

/-- The metric fields feeding `winRate`, `avgWinR` and `avgLossR`. -/
def coreOf (m : TruthMetrics) : Nat × Nat × ℚ × Nat × ℚ × Nat :=
  (m.count, m.wins, m.rWinSum, m.rWinCount, m.rLossSum, m.rLossCount)

theorem coreOf_applyHoldBlock (m : TruthMetrics) (r : TradeRow) :
    coreOf (applyHoldBlock m r) = coreOf m := by
  unfold applyHoldBlock
  cases tradeHoldMin r <;> rfl

theorem coreOf_applyMfeBlock (m : TruthMetrics) (r : TradeRow) :
    coreOf (applyMfeBlock m r) = coreOf m := by
  unfold applyMfeBlock
  cases r.mfe <;> rfl

theorem coreOf_applyMaeBlock (m : TruthMetrics) (r : TradeRow) :
    coreOf (applyMaeBlock m r) = coreOf m := by
  unfold applyMaeBlock
  cases r.mae <;> rfl

theorem coreOf_applySpreadBlock (m : TruthMetrics) (r : TradeRow) :
    coreOf (applySpreadBlock m r) = coreOf m := by
  unfold applySpreadBlock
  cases r.spread <;> rfl

theorem coreOf_applySlippageBlock (m : TruthMetrics) (r : TradeRow) :
    coreOf (applySlippageBlock m r) = coreOf m := by
  unfold applySlippageBlock
  cases totalSlippage r <;> rfl

theorem coreOf_applyTradeMetrics (m : TruthMetrics) (r : TradeRow) :
    coreOf (applyTradeMetrics m r) =
      (m.count + 1, m.wins + (if isWinningTrade r then 1 else 0),
        m.rWinSum + (rowWinR r).getD 0, m.rWinCount + (if (rowWinR r).isSome then 1 else 0),
        m.rLossSum + (rowLossR r).getD 0,
        m.rLossCount + (if (rowLossR r).isSome then 1 else 0)) := by
  unfold applyTradeMetrics
  rw [coreOf_applyHoldBlock, coreOf_applyMfeBlock, coreOf_applyMaeBlock,
    coreOf_applySpreadBlock, coreOf_applySlippageBlock]
  unfold applyRBlock applyPnlBlock isWinningTrade rowWinR rowLossR
  rcases hp : tradePnl r with _ | p <;> rcases hr : tradeR r with _ | rr <;>
    simp only [hp, hr, coreOf] <;> split_ifs <;> simp_all <;> linarith

theorem truthFold_core (l : List TradeRow) (m : TruthMetrics) :
    coreOf (l.foldl applyTradeMetrics m) =
      (m.count + l.length, m.wins + l.countP isWinningTrade,
        m.rWinSum + (l.filterMap rowWinR).sum,
        m.rWinCount + (l.filterMap rowWinR).length,
        m.rLossSum + (l.filterMap rowLossR).sum,
        m.rLossCount + (l.filterMap rowLossR).length) := by
  induction l generalizing m with
  | nil => simp [coreOf]
  | cons t rest ih =>
    rw [List.foldl_cons, ih]
    have hstep := coreOf_applyTradeMetrics m t
    simp only [coreOf, Prod.mk.injEq] at hstep
    obtain ⟨hc, hw, hws, hwc, hls, hlc⟩ := hstep
    rw [hc, hw, hws, hwc, hls, hlc]
    simp only [List.countP_cons, List.filterMap_cons, List.length_cons, Prod.mk.injEq]
    refine ⟨by omega, ?_, ?_, ?_, ?_, ?_⟩
    · by_cases h : isWinningTrade t <;> (simp [h]; try omega)
    · cases hwr : rowWinR t <;> (simp [hwr]; try ring)
    · cases hwr : rowWinR t <;> (simp [hwr]; try omega)
    · cases hlr : rowLossR t <;> (simp [hlr]; try ring)
    · cases hlr : rowLossR t <;> (simp [hlr]; try omega)

theorem filterMap_rowWinR (l : List TradeRow) :
    l.filterMap rowWinR = (l.filterMap tradeR).filter fun x => decide (0 ≤ x) := by
  induction l with
  | nil => rfl
  | cons t rest ih =>
    simp only [List.filterMap_cons]
    cases ht : tradeR t with
    | none => simp [rowWinR, ht, ih]
    | some x =>
      by_cases hx : (0 : ℚ) ≤ x <;> simp [rowWinR, ht, hx, ih]

theorem filterMap_rowLossR (l : List TradeRow) :
    l.filterMap rowLossR = (l.filterMap tradeR).filter fun x => decide (x < 0) := by
  induction l with
  | nil => rfl
  | cons t rest ih =>
    simp only [List.filterMap_cons]
    cases ht : tradeR t with
    | none => simp [rowLossR, ht, ih]
    | some x =>
      by_cases hx : (0 : ℚ) ≤ x
      · simp [rowLossR, ht, hx, ih, not_lt.mpr hx]
      · simp [rowLossR, ht, hx, ih, lt_of_not_le hx]

/-- The claim's win rate over the whole in-memory list: 100 times the
number of trades with defined nonnegative PnL over the number of trades. -/
def specWinRate (rows : List TradeRow) : Option ℚ :=
  if rows.length = 0 then none
  else some (100 * (rows.countP isWinningTrade : ℚ) / rows.length)

/-- The claim's `avgWinR`: the mean R-multiple over trades with a defined
R-multiple that is ≥ 0. -/
def specAvgWinR (rows : List TradeRow) : Option ℚ :=
  let ws := (rows.filterMap tradeR).filter fun x => decide (0 ≤ x)
  if ws.length = 0 then none else some (ws.sum / ws.length)

/-- The claim's `avgLossR`: the mean R-multiple over trades with a defined
R-multiple that is < 0. -/
def specAvgLossR (rows : List TradeRow) : Option ℚ :=
  let ls := (rows.filterMap tradeR).filter fun x => decide (x < 0)
  if ls.length = 0 then none else some (ls.sum / ls.length)

/-- C4: the truth-analytics expectancy is
`(winRate/100) · avgWinR + (1 − winRate/100) · avgLossR` with the claim's
win rate and win/loss R-means, and is `none` whenever any of the three is
undefined. -/
theorem truth_expectancy (rows : List TradeRow) :
    (buildTruthSummary (truthMetrics rows)).expectancy =
      match specAvgWinR rows, specAvgLossR rows, specWinRate rows with
      | some aw, some al, some wr => some ((wr / 100) * aw + (1 - wr / 100) * al)
      | _, _, _ => none := by
  have hcore := truthFold_core rows initTruthMetrics
  rw [show rows.foldl applyTradeMetrics initTruthMetrics = truthMetrics rows from rfl] at hcore
  simp only [coreOf, initTruthMetrics, Prod.mk.injEq, Nat.zero_add, zero_add] at hcore
  obtain ⟨hc, hw, hws, hwc, hls, hlc⟩ := hcore
  unfold buildTruthSummary
  simp only [hc, hw, hws, hwc, hls, hlc]
  unfold specAvgWinR specAvgLossR specWinRate
  rw [← filterMap_rowWinR, ← filterMap_rowLossR]
  by_cases h1 : (rows.filterMap rowWinR).length = 0 <;>
    by_cases h2 : (rows.filterMap rowLossR).length = 0 <;>
    by_cases h3 : rows.length = 0 <;>
    simp only [h1, h2, h3, if_true, if_false]
  all_goals first
    | rfl
    | (congr 1; ring)

/-! ### Trading-symbol parsing (`src/lib/instrumentFormat.ts`)

`parseTradingSymbol` matches the regular expression
`^([A-Z]+?)(\d{2})(\d{1,2})(\d{2})(\d+)(CE|PE)$` and the fallback
`^([A-Z]+)(\d+)(CE|PE)$`.  Both force a unique shape — leading uppercase
letters, then digits, then a final `CE`/`PE` — because the digit groups
cannot match letters and the lazy underlying must extend to the first
digit.  The only regex-engine choice is the greedy month group
`(\d{1,2})`, which takes two digits whenever at least seven digits are
present (two for the year, two for the month, two for the day and at least
one for the strike) and one digit otherwise.  The functions below encode
exactly that deterministic semantics. -/

def MONTHS : List String :=
  ["Jan", "Feb", "Mar", "Apr", "May", "Jun", "Jul", "Aug", "Sep", "Oct", "Nov", "Dec"]

/-- `String(n).padStart(2, "0")`; every call site passes the numeric value
of a two-digit group, so `n < 100`. -/
def pad2 (n : Nat) : String :=
  if n < 10 then String.mk ['0', Char.ofNat (48 + n)]
  else String.mk [Char.ofNat (48 + n / 10), Char.ofNat (48 + n % 10)]

/-- JS whitespace trim (`s.trim()`); the symbols only ever carry plain
spaces, tabs and newlines. -/
def isJsSpaceChar (c : Char) : Bool :=
  c = ' ' || c = '\t' || c = '\n' || c = '\r'

def jsTrim (s : String) : String :=
  String.mk (((s.data.dropWhile isJsSpaceChar).reverse.dropWhile isJsSpaceChar).reverse)

def isUpperAlpha (c : Char) : Bool := 'A' ≤ c && c ≤ 'Z'

def isDigitChar (c : Char) : Bool := '0' ≤ c && c ≤ '9'

/-- `Number(s)` for a nonempty digit string. -/
def natOfDigits (cs : List Char) : Nat :=
  cs.foldl (fun acc c => 10 * acc + (c.toNat - 48)) 0

structure ParsedTradingSymbol where
  underlying : String
  day : Option String := none
  mon : Option String := none
  year : Option String := none
  strike : Option String := none
  optType : Option String := none
  deriving DecidableEq

/-- Splits off a final `CE`/`PE`; `none` when the string ends in neither
(then both regexes fail). -/
def optSuffix (cs : List Char) : Option (List Char × String) :=
  let n := cs.length
  if n < 2 then none
  else
    let body := cs.take (n - 2)
    let suf := cs.drop (n - 2)
    if suf = ['C', 'E'] then some (body, "CE")
    else if suf = ['P', 'E'] then some (body, "PE")
    else none

/-- The first regex `^([A-Z]+?)(\d{2})(\d{1,2})(\d{2})(\d+)(CE|PE)$` and
the construction of its parse result: `mon = MONTHS[monNum - 1] || ""`
(an out-of-range month index yields `""`), `day = pad2(Number(m[4]))`. -/
def parseCommonFormat (body : List Char) (opt : String) : Option ParsedTradingSymbol :=
  let letters := body.takeWhile isUpperAlpha
  let digits := body.dropWhile isUpperAlpha
  if letters.isEmpty || digits.isEmpty || !digits.all isDigitChar then none
  else if digits.length < 6 then none
  else
    let year := digits.take 2
    let rest := digits.drop 2
    let monLen := if 7 ≤ digits.length then 2 else 1
    let monNum := natOfDigits (rest.take monLen)
    let rest2 := rest.drop monLen
    let day := pad2 (natOfDigits (rest2.take 2))
    let strike := rest2.drop 2
    let mon := if 1 ≤ monNum ∧ monNum ≤ 12 then MONTHS.getD (monNum - 1) "" else ""
    some { underlying := String.mk letters
           year := some (String.mk year)
           mon := some mon
           day := some day
           strike := some (String.mk strike)
           optType := some opt }

/-- The fallback regex `^([A-Z]+)(\d+)(CE|PE)$`. -/
def parseFallback (body : List Char) (opt : String) : Option ParsedTradingSymbol :=
  let letters := body.takeWhile isUpperAlpha
  let digits := body.dropWhile isUpperAlpha
  if letters.isEmpty || digits.isEmpty || !digits.all isDigitChar then none
  else
    some { underlying := String.mk letters
           strike := some (String.mk digits)
           optType := some opt }

/-- `parseTradingSymbol` from the instrument-format module. -/
def parseTradingSymbol (tradingsymbol : Option String) : Option ParsedTradingSymbol :=
  match tradingsymbol with
  | none => none
  | some s0 =>
    if s0 = "" then none
    else
      let ts := jsToUpper (jsTrim s0)
      match optSuffix ts.data with
      | none => none
      | some (body, opt) =>
        match parseCommonFormat body opt with
        | some p => some p
        | none => parseFallback body opt

/-- `optionWord` from the instrument-format module. -/
def optionWord (t : Option String) : String :=
  let s := jsToUpper (t.getD "")
  if s = "PE" || s = "PUT" then "Put"
  else if s = "CE" || s = "CALL" then "Call"
  else if strContainsJs s "PE" then "Put"
  else if strContainsJs s "CE" then "Call"
  else ""

/-- `formatPrettyInstrumentFromTradingSymbol` from the instrument-format
module (`p.day && p.mon`, `p.strike` and `opt` are JS truthiness tests:
nonempty strings). -/
def formatPrettyInstrumentFromTradingSymbol (tradingsymbol : Option String) : Option String :=
  match parseTradingSymbol tradingsymbol with
  | none => none
  | some p =>
    let expiry : Option String :=
      match p.day, p.mon with
      | some d, some m => if d = "" ∨ m = "" then none else some (d ++ " " ++ m)
      | _, _ => none
    let strikeTruthy := p.strike.getD "" ≠ ""
    let opt := optionWord p.optType
    if expiry.isSome ∧ strikeTruthy ∧ opt ≠ "" then
      some (p.underlying ++ " " ++ expiry.getD "" ++ " " ++ p.strike.getD "" ++ " " ++ opt)
    else if strikeTruthy ∧ opt ≠ "" then
      some (p.underlying ++ " " ++ p.strike.getD "" ++ " " ++ opt)
    else some p.underlying

/-! ### Claim C5: the parser on the documented symbol shape

The function's own doc comment gives `NIFTY2620324800PE` as a parse
example of the shape `UNDERLYING + YY + M(M) + DD + STRIKE + CE/PE`
(NIFTY, year 26, month 2 = Feb, day 03, strike 24800, PE).  The greedy
month group instead grabs the two digits "20", an invalid month, so the
month name comes out empty, the day as "32" and the strike as "4800", and
the pretty-printer renders "NIFTY 4800 Put" instead of
"NIFTY 03 Feb 24800 Put". -/

/-- C5: evaluation of the parser and formatter at the doc comment's own
example input, exhibiting the mis-parse. -/
theorem parseTradingSymbol_docExample :
    parseTradingSymbol (some "NIFTY2620324800PE")
      = some { underlying := "NIFTY", year := some "26", mon := some "", day := some "32",
               strike := some "4800", optType := some "PE" }
    ∧ formatPrettyInstrumentFromTradingSymbol (some "NIFTY2620324800PE")
      = some "NIFTY 4800 Put"
    ∧ formatPrettyInstrumentFromTradingSymbol (some "NIFTY2620324800PE")
      ≠ some "NIFTY 03 Feb 24800 Put" := by
  refine ⟨?_, ?_, ?_⟩ <;> decide

/-! ### Claim C6: refetch intervals versus the socket state

`App.tsx` computes `const wsPoll = socketState.connected ? false : undefined`
and passes `wsPoll ?? n` to every top-level query.  The chart panel passes
`socketConnected ? 1000 : 1500` to the live-LTP hook, and to the candles
hook a `pollMs` React state: initialized and baseline-reset to
`socketConnected ? false : 2500` (the effect on
`[socketConnected, token, intervalMin]`), and adjusted by the adaptive
polling effect, which returns early while connected, without a token or
with a non-finite lag, and otherwise polls at 1500 ms when the feed lag
exceeds the stale cutoff, 2500 ms when it exceeds the good cutoff, and the
2500 ms baseline when healthy. -/

inductive Refetch where
  | off : Refetch
  | ms : Nat → Refetch
  deriving DecidableEq

/-- `socketState.connected ? false : undefined`. -/
def wsPoll (connected : Bool) : Option Refetch :=
  if connected then some Refetch.off else none

/-- The nullish coalescing `wsPoll ?? n` (`false` is not nullish). -/
def orDefaultMs (v : Option Refetch) (n : Nat) : Refetch := v.getD (Refetch.ms n)

structure QueryWiring where
  name : String
  /-- The hook's declared default `pollMs` (none for the inline `useQuery`
  calls in `App.tsx`, which have no hook wrapper). -/
  declaredDefaultMs : Option Nat
  /-- The numeric interval the dashboard passes for the disconnected case. -/
  appMs : Nat
  /-- The `refetchInterval` the query receives as a function of the socket
  state. -/
  refetch : Bool → Refetch

/-- A query wired as `refetchInterval: wsPoll ?? n`. -/
def wsQuery (name : String) (declared : Option Nat) (n : Nat) : QueryWiring :=
  { name := name, declaredDefaultMs := declared, appMs := n
    refetch := fun c => orDefaultMs (wsPoll c) n }

/-- `useLiveLtp(token, socketConnected ? 1000 : 1500)` in the chart panel:
this hook polls in both socket states. -/
def liveLtpPanelQuery : QueryWiring :=
  { name := "useLiveLtp(panel)", declaredDefaultMs := some 1000, appMs := 1500
    refetch := fun c => Refetch.ms (if c then 1000 else 1500) }

/-- Every data query of the dashboard with its declared hook default and
the interval `App.tsx` (resp. the chart panel) passes. -/
def dashboardQueries : List QueryWiring :=
  [ wsQuery "ready" none 10000,
    wsQuery "config" none 30000,
    wsQuery "trading" none 12000,
    wsQuery "retention" none 30000,
    wsQuery "rbac" none 30000,
    wsQuery "status" (some 2000) 2000,
    wsQuery "subscriptions" (some 5000) 5000,
    wsQuery "tradesRecent" (some 2000) 2000,
    wsQuery "equity" (some 5000) 6000,
    wsQuery "positions" (some 5000) 8000,
    wsQuery "orders" (some 5000) 8000,
    wsQuery "riskLimits" (some 8000) 10000,
    wsQuery "strategyKpis" (some 8000) 12000,
    wsQuery "executionQuality" (some 8000) 12000,
    wsQuery "marketHealth" (some 6000) 8000,
    wsQuery "auditLogs" (some 10000) 20000,
    wsQuery "alertChannels" (some 12000) 20000,
    wsQuery "alertIncidents" (some 12000) 15000,
    wsQuery "telemetry" (some 12000) 20000,
    wsQuery "tradeTelemetry" (some 12000) 20000,
    wsQuery "optimizer" (some 12000) 20000,
    wsQuery "rejections" (some 15000) 20000,
    wsQuery "costCalibration" (some 20000) 30000,
    wsQuery "marketCalendar" (some 20000) 30000,
    wsQuery "fnoUniverse" (some 20000) 60000,
    wsQuery "criticalHealth" (some 12000) 12000,
    liveLtpPanelQuery ]

/-! The candle query of the chart panel: `useCandles(token, intervalMin,
320, pollMs)` where `pollMs` is the adaptive React state described above.
Its reachable values are modelled as a state machine over the two effects
that write it; `serverNowMs`/`rows` enter only through the computed
`lagSec`, carried here as an `Option ℚ` (`none` for a non-finite lag). -/

/-- `const staleCut = intervalMin * 60 * 2 + 15`. -/
def staleCut (intervalMin : Nat) : ℚ := intervalMin * 60 * 2 + 15

/-- `const goodCut = intervalMin * 60 + 8`. -/
def goodCut (intervalMin : Nat) : ℚ := intervalMin * 60 + 8

/-- `const baseline = 2500` in the adaptive polling effect. -/
def candlesBaselineMs : Nat := 2500

/-- The two effects that write the panel's `pollMs` state. -/
inductive CandlePollEvent where
  /-- The baseline reset on `[socketConnected, token, intervalMin]`:
  `setPollMs(socketConnected ? false : 2500)`. -/
  | reset : CandlePollEvent
  /-- The adaptive polling effect, with the token, the computed feed lag in
  seconds (`none` when not finite) and the chart interval it observes. -/
  | adapt (token : Option Nat) (lagSec : Option ℚ) (intervalMin : Nat) : CandlePollEvent

/-- One write to `pollMs` (the socket state is stable across a run: any
change of `socketConnected` retriggers the baseline reset). -/
def candlePollStep (connected : Bool) (p : Refetch) : CandlePollEvent → Refetch
  | .reset => if connected then Refetch.off else Refetch.ms 2500
  | .adapt token lagSec intervalMin =>
    if connected then p
    else
      match token, lagSec with
      | some _, some lag =>
        if staleCut intervalMin < lag then Refetch.ms 1500
        else if goodCut intervalMin < lag then Refetch.ms 2500
        else Refetch.ms candlesBaselineMs
      | _, _ => p

/-- The `pollMs` value the candle query receives after any sequence of
effect runs at a stable socket state, starting from the initializer
`socketConnected ? false : 2500`. -/
def candlePollRun (connected : Bool) (evs : List CandlePollEvent) : Refetch :=
  evs.foldl (candlePollStep connected) (if connected then Refetch.off else Refetch.ms 2500)

/-- Counterexample to C6 as stated: the live-LTP query polls at 1000 ms
while the socket is connected, and the equity query's disconnected
interval (6000) is not the hook's declared default (5000). -/
theorem dashboard_poll_cex :
    liveLtpPanelQuery ∈ dashboardQueries
    ∧ liveLtpPanelQuery.refetch true = Refetch.ms 1000
    ∧ Refetch.ms 1000 ≠ Refetch.off
    ∧ wsQuery "equity" (some 5000) 6000 ∈ dashboardQueries
    ∧ (wsQuery "equity" (some 5000) 6000).refetch false = Refetch.ms 6000
    ∧ (wsQuery "equity" (some 5000) 6000).declaredDefaultMs = some 5000 := by
  refine ⟨by simp [dashboardQueries], rfl, by decide, by simp [dashboardQueries], rfl, rfl⟩

theorem candlePollStep_connected (e : CandlePollEvent) :
    candlePollStep true Refetch.off e = Refetch.off := by
  cases e <;> rfl

theorem candlePollRun_connected (evs : List CandlePollEvent) :
    candlePollRun true evs = Refetch.off := by
  unfold candlePollRun
  induction evs with
  | nil => rfl
  | cons e rest ih =>
    rw [show (if true = true then Refetch.off else Refetch.ms 2500) = Refetch.off from rfl,
      List.foldl_cons, candlePollStep_connected]
    simpa using ih

theorem candlePollStep_stale (p : Refetch) (tok : Nat) (lag : ℚ) (m : Nat) :
    candlePollStep false p (CandlePollEvent.adapt (some tok) (some lag) m)
      = if staleCut m < lag then Refetch.ms 1500 else Refetch.ms 2500 := by
  unfold candlePollStep
  by_cases h1 : staleCut m < lag
  · simp [h1]
  · by_cases h2 : goodCut m < lag <;> simp [h1, h2, candlesBaselineMs]

theorem candlePollRun_disconnected (evs : List CandlePollEvent) :
    candlePollRun false evs = Refetch.ms 2500 ∨ candlePollRun false evs = Refetch.ms 1500 := by
  suffices h : ∀ (l : List CandlePollEvent) (p : Refetch),
      p = Refetch.ms 2500 ∨ p = Refetch.ms 1500 →
      (l.foldl (candlePollStep false) p = Refetch.ms 2500
        ∨ l.foldl (candlePollStep false) p = Refetch.ms 1500) by
    exact h evs _ (Or.inl rfl)
  intro l
  induction l with
  | nil => intro p hp; exact hp
  | cons e rest ih =>
    intro p hp
    rw [List.foldl_cons]
    refine ih _ ?_
    cases e with
    | reset => exact Or.inl rfl
    | adapt tok lag m =>
      cases tok with
      | none => cases lag <;> exact hp
      | some t =>
        cases lag with
        | none => exact hp
        | some lg =>
          rw [candlePollStep_stale]
          by_cases h1 : staleCut m < lg
          · exact Or.inr (by simp [h1])
          · exact Or.inl (by simp [h1])

/-- C6 (amended): while the socket is connected every dashboard query
except the panel's live-LTP query receives `refetchInterval: false` — for
the candle panel, every reachable `pollMs` state at a connected socket is
`false` — and the LTP query polls at 1000 ms.  While disconnected, each
App-level query polls at the numeric interval the dashboard passes for it
(which for several hooks differs from the hook's declared default), and
the candle panel polls adaptively: 2500 ms or 1500 ms, the adaptive effect
choosing 1500 ms exactly when the feed lag exceeds the stale cutoff. -/
theorem dashboard_poll_amended :
    (∀ q ∈ dashboardQueries,
      (q.name ≠ "useLiveLtp(panel)" → q.refetch true = Refetch.off)
      ∧ q.refetch false = Refetch.ms q.appMs)
    ∧ liveLtpPanelQuery.refetch true = Refetch.ms 1000
    ∧ (∀ evs : List CandlePollEvent, candlePollRun true evs = Refetch.off)
    ∧ (∀ evs : List CandlePollEvent,
        candlePollRun false evs = Refetch.ms 2500
          ∨ candlePollRun false evs = Refetch.ms 1500)
    ∧ (∀ (p : Refetch) (tok : Nat) (lag : ℚ) (m : Nat),
        candlePollStep false p (CandlePollEvent.adapt (some tok) (some lag) m)
          = if staleCut m < lag then Refetch.ms 1500 else Refetch.ms 2500) := by
  refine ⟨?_, rfl, candlePollRun_connected, candlePollRun_disconnected,
    fun p tok lag m => candlePollStep_stale p tok lag m⟩
  intro q hq
  fin_cases hq <;>
    first
      | exact ⟨fun _ => rfl, rfl⟩
      | exact ⟨fun h => absurd rfl h, rfl⟩

/-- Closed instance of the amended polling theorem: the status hook and a
connected candle-panel run with an adaptive event. -/
theorem dashboard_poll_witness :
    (wsQuery "status" (some 2000) 2000).refetch true = Refetch.off
    ∧ candlePollRun true [CandlePollEvent.adapt (some 1) (some 1000) 1] = Refetch.off :=
  ⟨(dashboard_poll_amended.1 (wsQuery "status" (some 2000) 2000)
      (by simp [dashboardQueries])).1 (by decide),
    dashboard_poll_amended.2.2.1 [CandlePollEvent.adapt (some 1) (some 1000) 1]⟩

/-! ### Claim C7: the dashboard always has exactly four charts -/

structure ChartConfig where
  token : Option Nat := none
  intervalMin : Nat := 1
  deriving DecidableEq

/-- A saved chart entry as read back from the localStorage JSON
(`x?.token ?? null` and `Number(x?.intervalMin || 1)`; a null entry has
both fields absent). -/
structure RawChart where
  token : Option Nat := none
  intervalMin : Option Nat := none

def normChart (x : RawChart) : ChartConfig :=
  { token := x.token
    intervalMin :=
      match x.intervalMin with
      | some n => if n = 0 then 1 else n
      | none => 1 }

/-- `defaultCharts` from `src/App.tsx`. -/
def defaultCharts : List ChartConfig :=
  [{ token := none, intervalMin := 1 }, { token := none, intervalMin := 1 },
   { token := none, intervalMin := 3 }, { token := none, intervalMin := 3 }]

/-- The `useState` initializer: adopt `saved.charts` only when it is an
array of exactly four entries. -/
def initCharts (saved : Option (List RawChart)) : List ChartConfig :=
  match saved with
  | some c => if c.length = 4 then c.map normChart else defaultCharts
  | none => defaultCharts

/-- JS truthiness of a chart's token (`null` and `0` are falsy; real
instrument tokens are nonzero). -/
def tokenTruthy (t : Option Nat) : Bool :=
  match t with
  | some n => decide (n ≠ 0)
  | none => false

/-- The auto-assign loop of the `React.useEffect` on `tokens`: fill every
chart without a truthy token with the first subscribed token not in use. -/
def autoFill (tokens used : List Nat) : List ChartConfig → List ChartConfig
  | [] => []
  | c :: rest =>
    if tokenTruthy c.token then c :: autoFill tokens used rest
    else
      match tokens.find? (fun t => !used.contains t) with
      | some pick => { c with token := some pick } :: autoFill tokens (pick :: used) rest
      | none => c :: autoFill tokens used rest

/-- The `setCharts` updates reachable in `App.tsx`. -/
inductive ChartEvent where
  | resetLayout : ChartEvent
  /-- `onChange` of panel `i` (`cp[i] = next` for a rendered index `i < 4`). -/
  | panelChange (i : Nat) (next : ChartConfig) : ChartEvent
  /-- `focusToken(tok)` (tokens are nonzero, so `Number(c.token) ===
  Number(tok)` is token equality). -/
  | focusToken (tok : Nat) : ChartEvent
  | autoAssign (tokens : List Nat) : ChartEvent

def chartsStep (charts : List ChartConfig) : ChartEvent → List ChartConfig
  | .resetLayout => defaultCharts
  | .panelChange i next => charts.set i next
  | .focusToken tok =>
    let idx :=
      match charts.findIdx? (fun c => c.token = some tok) with
      | some j => j
      | none => 0
    if (charts.getD idx {}).token = some tok then charts
    else charts.set idx { charts.getD idx {} with token := some tok }
  | .autoAssign tokens =>
    if tokens.isEmpty then charts
    else
      autoFill tokens
        (charts.filterMap fun c => if tokenTruthy c.token then c.token else none) charts

def chartsRun (saved : Option (List RawChart)) (evs : List ChartEvent) : List ChartConfig :=
  evs.foldl chartsStep (initCharts saved)

theorem autoFill_length (tokens used : List Nat) (cs : List ChartConfig) :
    (autoFill tokens used cs).length = cs.length := by
  induction cs generalizing used with
  | nil => rfl
  | cons c rest ih =>
    unfold autoFill
    by_cases h : tokenTruthy c.token
    · simp [h, ih]
    · simp only [h, if_false]
      cases tokens.find? (fun t => !used.contains t) <;> simp [ih]

theorem chartsStep_length (s : List ChartConfig) (e : ChartEvent) (h : s.length = 4) :
    (chartsStep s e).length = 4 := by
  cases e with
  | resetLayout => rfl
  | panelChange i next => simpa [chartsStep] using h
  | focusToken tok =>
    simp only [chartsStep]
    split <;> simpa using h
  | autoAssign tokens =>
    simp only [chartsStep]
    split
    · exact h
    · rw [autoFill_length]; exact h

/-- C7: in every reachable state — any saved layout, any sequence of chart
updates — the charts state has exactly four entries. -/
theorem charts_always_four (saved : Option (List RawChart)) (evs : List ChartEvent) :
    (chartsRun saved evs).length = 4 := by
  suffices h : ∀ s : List ChartConfig, s.length = 4 → (evs.foldl chartsStep s).length = 4 by
    refine h _ ?_
    unfold initCharts
    cases saved with
    | none => rfl
    | some c =>
      by_cases hl : c.length = 4 <;> simp [hl, defaultCharts]
  intro s hs
  induction evs generalizing s with
  | nil => exact hs
  | cons e rest ih => exact ih _ (chartsStep_length s e hs)

/-! ### Claim C8: the DB purge action -/

structure PurgeRequest where
  path : String
  confirm : String
  deriving DecidableEq

inductive ToastLevel where
  | warn
  | good
  | bad
  deriving DecidableEq

structure PurgeOutcome where
  request : Option PurgeRequest
  toast : Option (ToastLevel × String)
  deriving DecidableEq

/-- `handleDbPurge` from `src/App.tsx`.  `connected = Boolean(statusQ.data?.ok)`;
`promptResponse = none` models a cancelled `window.prompt`.  A issued
request is `postJson(settings, "/admin/db/purge", { confirm: "PURGE" })`
through `runAction`; the completion toasts of `runAction` are outside this
model, as are the `console` calls. -/
def handleDbPurge (connected : Bool) (promptResponse : Option String) : PurgeOutcome :=
  if !connected then
    { request := none
      toast := some (ToastLevel.warn, "Connect to backend before purging the database.") }
  else if promptResponse ≠ some "PURGE" then
    { request := none, toast := some (ToastLevel.warn, "Database purge cancelled.") }
  else
    { request := some { path := "/admin/db/purge", confirm := "PURGE" }, toast := none }

/-- C8: the purge request is sent exactly when the backend is connected and
the prompt response is exactly "PURGE"; otherwise nothing is sent and the
only effect is a warning toast. -/
theorem handleDbPurge_spec (connected : Bool) (promptResponse : Option String) :
    ((handleDbPurge connected promptResponse).request
        = some { path := "/admin/db/purge", confirm := "PURGE" }
      ↔ connected = true ∧ promptResponse = some "PURGE")
    ∧ ((handleDbPurge connected promptResponse).request = none →
        ∃ msg, (handleDbPurge connected promptResponse).toast = some (ToastLevel.warn, msg)) := by
  cases connected <;> by_cases h : promptResponse = some "PURGE" <;>
    simp [handleDbPurge, h]

/-- Closed instance of the purge theorem: confirmed prompt on a connected
backend sends the request; the same prompt while disconnected does not. -/
theorem handleDbPurge_witness :
    (handleDbPurge true (some "PURGE")).request
      = some { path := "/admin/db/purge", confirm := "PURGE" }
    ∧ (handleDbPurge false (some "PURGE")).request = none :=
  ⟨(handleDbPurge_spec true (some "PURGE")).1.mpr ⟨rfl, rfl⟩, by decide⟩

/-! ### `nearestCandleTime` from `src/lib/chartUtils.ts`

`LwCandle.time` is the candle's epoch-second timestamp (an integer);
`tsMs : Option Int` models the millisecond argument with `none` for a
non-finite number (`Number.isFinite` guard).  The binary search manipulates
`lo`/`hi` as integers because `hi` can reach `-1`; `(lo + hi) >> 1` is the
floor division by two. -/

structure LwCandle where
  time : Int
  opn : ℚ := 0
  high : ℚ := 0
  low : ℚ := 0
  close : ℚ := 0
  deriving DecidableEq

instance : Inhabited LwCandle := ⟨{ time := 0 }⟩

/-- `candles[i].time` (the loop only ever reads indices in bounds). -/
def lwTime (cs : List LwCandle) (i : Nat) : Int := (cs.getD i default).time

/-- The `while (lo <= hi)` loop in fuel-indexed form: `Sum.inl t` is the
early `return t` on an exact hit, `Sum.inr lo` the insertion point when the
loop exits.  `lo ≤ hi` forces the interval measure `(hi + 1 - lo).toNat`
to be positive and every iteration shrinks it, so with the measure as fuel
(as `nearestLoop` passes it) the `0` branch is unreachable. -/
def nearestLoopF (cs : List LwCandle) (target : Int) : Nat → Int → Int → Int ⊕ Int
  | 0, lo, _ => Sum.inr lo
  | fuel + 1, lo, hi =>
    if lo ≤ hi then
      if lwTime cs ((lo + hi) / 2).toNat = target then
        Sum.inl (lwTime cs ((lo + hi) / 2).toNat)
      else if lwTime cs ((lo + hi) / 2).toNat < target then
        nearestLoopF cs target fuel ((lo + hi) / 2 + 1) hi
      else
        nearestLoopF cs target fuel lo ((lo + hi) / 2 - 1)
    else Sum.inr lo

def nearestLoop (cs : List LwCandle) (target lo hi : Int) : Int ⊕ Int :=
  nearestLoopF cs target (hi + 1 - lo).toNat lo hi

/-- `nearestCandleTime` from `src/lib/chartUtils.ts`. -/
def nearestCandleTime (candles : List LwCandle) (tsMs : Option Int) : Option Int :=
  if candles.isEmpty then none
  else
    match tsMs with
    | none => none
    | some ms =>
      let target := ms / 1000
      match nearestLoop candles target 0 ((candles.length : Int) - 1) with
      | Sum.inl t => some t
      | Sum.inr lo =>
        let n : Int := candles.length
        let left := max 0 (min (n - 1) (lo - 1))
        let right := max 0 (min (n - 1) lo)
        let dl := (lwTime candles left.toNat - target).natAbs
        let dr := (lwTime candles right.toNat - target).natAbs
        if dl ≤ dr then some (lwTime candles left.toNat)
        else some (lwTime candles right.toNat)

/-! The claim's specification: the time of the first candle whose absolute
distance to the target second is minimal. -/

def argminStep (target : Int) (best x : LwCandle) : LwCandle :=
  if (x.time - target).natAbs < (best.time - target).natAbs then x else best

/-- The time of the earliest candle at minimal `|time - target|`. -/
def specNearest (cs : List LwCandle) (target : Int) : Option Int :=
  match cs with
  | [] => none
  | c :: rest => some ((rest.foldl (argminStep target) c).time)

/-! Facts about the first-argmin fold behind `specNearest`. -/

theorem argminStep_dist_le_left (target : Int) (b x : LwCandle) :
    ((argminStep target b x).time - target).natAbs ≤ (b.time - target).natAbs := by
  unfold argminStep
  split
  · omega
  · exact le_refl _

theorem argminStep_dist_le_right (target : Int) (b x : LwCandle) :
    ((argminStep target b x).time - target).natAbs ≤ (x.time - target).natAbs := by
  unfold argminStep
  split
  · exact le_refl _
  · omega

theorem argminFold_mem (target : Int) (l : List LwCandle) (b : LwCandle) :
    l.foldl (argminStep target) b ∈ b :: l := by
  induction l generalizing b with
  | nil => simp
  | cons x xs ih =>
    rw [List.foldl_cons]
    have hs : argminStep target b x = x ∨ argminStep target b x = b := by
      unfold argminStep
      split
      · exact Or.inl rfl
      · exact Or.inr rfl
    rcases List.mem_cons.mp (ih (argminStep target b x)) with h | h
    · rcases hs with h2 | h2 <;> rw [h2] at h ⊢ <;> simp [h]
    · simp [h]

theorem argminFold_min (target : Int) (l : List LwCandle) (b : LwCandle) :
    ∀ x ∈ b :: l, ((l.foldl (argminStep target) b).time - target).natAbs
      ≤ (x.time - target).natAbs := by
  induction l generalizing b with
  | nil =>
    intro x hx
    rcases List.mem_cons.mp hx with rfl | h
    · exact le_refl _
    · simp at h
  | cons y ys ih =>
    intro x hx
    rw [List.foldl_cons]
    rcases List.mem_cons.mp hx with rfl | hx'
    · exact le_trans (ih (argminStep target x y) _ (List.mem_cons_self _ _))
        (argminStep_dist_le_left target x y)
    · rcases List.mem_cons.mp hx' with rfl | hx''
      · exact le_trans (ih (argminStep target b x) _ (List.mem_cons_self _ _))
          (argminStep_dist_le_right target b x)
      · exact ih (argminStep target b y) x (List.mem_cons_of_mem _ hx'')

theorem argminFold_stay (target : Int) (l : List LwCandle) (b : LwCandle)
    (h : ∀ x ∈ l, (b.time - target).natAbs ≤ (x.time - target).natAbs) :
    l.foldl (argminStep target) b = b := by
  induction l with
  | nil => rfl
  | cons y ys ih =>
    rw [List.foldl_cons]
    have hby : argminStep target b y = b := by
      unfold argminStep
      rw [if_neg (not_lt.mpr (h y (List.mem_cons_self _ _)))]
    rw [hby]
    exact ih fun x hx => h x (List.mem_cons_of_mem _ hx)

theorem argminFold_getLast (target : Int) (l : List LwCandle) (b : LwCandle)
    (h : List.Chain (fun a x => (x.time - target).natAbs < (a.time - target).natAbs) b l) :
    l.foldl (argminStep target) b = (b :: l).getLast (by simp) := by
  induction l generalizing b with
  | nil => simp [List.getLast]
  | cons y ys ih =>
    rw [List.foldl_cons]
    rcases List.chain_cons.mp h with ⟨hby, hchain⟩
    have hstep : argminStep target b y = y := by
      unfold argminStep
      rw [if_pos hby]
    rw [hstep, List.getLast_cons (by simp)]
    exact ih y hchain

/-- The binary-search invariant: indices left of `lo` are below the target
and indices right of `hi` above, and the loop either returns an exact hit
or the point splitting the list into below-target and above-target parts. -/
theorem nearestLoopF_split (cs : List LwCandle) (target : Int)
    (hst : ∀ i j : Nat, i < j → j < cs.length → lwTime cs i < lwTime cs j) :
    ∀ (fuel : Nat) (lo hi : Int),
      (hi + 1 - lo).toNat ≤ fuel →
      0 ≤ lo → hi < (cs.length : Int) → lo ≤ hi + 1 →
      (∀ i : Nat, (i : Int) < lo → lwTime cs i < target) →
      (∀ i : Nat, hi < (i : Int) → i < cs.length → target < lwTime cs i) →
      match nearestLoopF cs target fuel lo hi with
      | Sum.inl t => t = target ∧ ∃ i : Nat, i < cs.length ∧ lwTime cs i = target
      | Sum.inr L => 0 ≤ L ∧ L ≤ (cs.length : Int) ∧
          (∀ i : Nat, (i : Int) < L → lwTime cs i < target) ∧
          (∀ i : Nat, L ≤ (i : Int) → i < cs.length → target < lwTime cs i) := by
  intro fuel
  induction fuel with
  | zero =>
    intro lo hi hfuel h0 hn hle1 hlt hgt
    simp only [nearestLoopF]
    have hexit : lo = hi + 1 := by omega
    exact ⟨h0, by omega, hlt, fun i hiL hin => hgt i (by omega) hin⟩
  | succ fuel ih =>
    intro lo hi hfuel h0 hn hle1 hlt hgt
    simp only [nearestLoopF]
    by_cases hlohi : lo ≤ hi
    · simp only [hlohi, if_true]
      have hmidb : lo ≤ (lo + hi) / 2 ∧ (lo + hi) / 2 ≤ hi := by omega
      have hmidn : (((lo + hi) / 2).toNat : Int) = (lo + hi) / 2 := by omega
      by_cases heq : lwTime cs ((lo + hi) / 2).toNat = target
      · simp only [heq, if_true]
        exact ⟨by trivial, ((lo + hi) / 2).toNat, by omega, heq⟩
      · simp only [heq, if_false]
        by_cases hlt2 : lwTime cs ((lo + hi) / 2).toNat < target
        · simp only [hlt2, if_true]
          refine ih ((lo + hi) / 2 + 1) hi (by omega) (by omega) hn (by omega) ?_ hgt
          intro i hiL
          rcases Nat.lt_or_ge i ((lo + hi) / 2).toNat with hi2 | hi2
          · exact lt_trans (hst i ((lo + hi) / 2).toNat hi2 (by omega)) hlt2
          · have : i = ((lo + hi) / 2).toNat := by omega
            rw [this]
            exact hlt2
        · simp only [hlt2, if_false]
          have hmt : target < lwTime cs ((lo + hi) / 2).toNat :=
            lt_of_le_of_ne (not_lt.mp hlt2) (Ne.symm heq)
          refine ih lo ((lo + hi) / 2 - 1) (by omega) h0 (by omega) (by omega) hlt ?_
          intro i hiL hin
          rcases Nat.lt_or_ge ((lo + hi) / 2).toNat i with hi2 | hi2
          · exact lt_trans hmt (hst ((lo + hi) / 2).toNat i hi2 hin)
          · have : i = ((lo + hi) / 2).toNat := by omega
            rw [this]
            exact hmt
    · simp only [hlohi, if_false]
      have hexit : lo = hi + 1 := by omega
      exact ⟨h0, by omega, hlt, fun i hiL hin => hgt i (by omega) hin⟩

theorem lwTime_strictMono (cs : List LwCandle)
    (hsort : cs.Pairwise (fun a b => a.time < b.time)) :
    ∀ i j : Nat, i < j → j < cs.length → lwTime cs i < lwTime cs j := by
  intro i j hij hj
  have hi : i < cs.length := lt_trans hij hj
  have h := List.pairwise_iff_getElem.mp hsort i j hi hj hij
  unfold lwTime
  rw [List.getD_eq_getElem _ _ hi, List.getD_eq_getElem _ _ hj]
  exact h

theorem specNearest_exact (cs : List LwCandle) (target : Int) (i : Nat)
    (hin : i < cs.length) (hieq : lwTime cs i = target) :
    specNearest cs target = some target := by
  cases cs with
  | nil => simp at hin
  | cons c rest =>
    unfold specNearest
    have hmin := argminFold_min target rest c ((c :: rest).get ⟨i, hin⟩)
      (List.get_mem _ _ _)
    rw [List.get_eq_getElem, ← List.getD_eq_getElem _ default hin] at hmin
    unfold lwTime at hieq
    rw [hieq] at hmin
    simp only [Option.some.injEq]
    omega

theorem specNearest_allAbove (c : LwCandle) (rest : List LwCandle) (target : Int)
    (hsort : (c :: rest).Pairwise (fun a b => a.time < b.time))
    (hc : target < c.time) :
    specNearest (c :: rest) target = some c.time := by
  show some ((List.foldl (argminStep target) c rest).time) = some c.time
  rw [argminFold_stay]
  intro x hx
  have hcx : c.time < x.time := (List.pairwise_cons.mp hsort).1 x hx
  omega

theorem specNearest_allBelow (c : LwCandle) (rest : List LwCandle) (target : Int)
    (hsort : (c :: rest).Pairwise (fun a b => a.time < b.time))
    (hall : ∀ x ∈ c :: rest, x.time < target) :
    specNearest (c :: rest) target = some (((c :: rest).getLast (by simp)).time) := by
  show some ((List.foldl (argminStep target) c rest).time)
    = some (((c :: rest).getLast (by simp)).time)
  rw [argminFold_getLast]
  have hpw : (c :: rest).Pairwise
      (fun a x => (x.time - target).natAbs < (a.time - target).natAbs) := by
    refine hsort.imp_of_mem ?_
    intro a b ha hb hab
    have h1 := hall a ha
    have h2 := hall b hb
    omega
  exact hpw.chain'

theorem specNearest_middle (c : LwCandle) (rest : List LwCandle) (target : Int) (L : Nat)
    (hsort : (c :: rest).Pairwise (fun a b => a.time < b.time))
    (hL1 : 1 ≤ L) (hLn : L < (c :: rest).length)
    (hlt : ∀ i : Nat, i < L → lwTime (c :: rest) i < target)
    (hgt : ∀ i : Nat, L ≤ i → i < (c :: rest).length → target < lwTime (c :: rest) i) :
    specNearest (c :: rest) target =
      if (lwTime (c :: rest) (L - 1) - target).natAbs
          ≤ (lwTime (c :: rest) L - target).natAbs
      then some (lwTime (c :: rest) (L - 1)) else some (lwTime (c :: rest) L) := by
  show some ((List.foldl (argminStep target) c rest).time) = _
  have hrest : rest = rest.take (L - 1) ++ rest.drop (L - 1) := (List.take_append_drop _ _).symm
  conv_lhs => rw [hrest]
  rw [List.foldl_append]
  have hpre : c :: rest.take (L - 1) = (c :: rest).take L := by
    conv_rhs => rw [show L = (L - 1) + 1 from by omega]
    exact (List.take_succ_cons).symm
  have hallpre : ∀ x ∈ (c :: rest).take L, x.time < target := by
    intro x hx
    obtain ⟨⟨i, hi⟩, hget⟩ := List.mem_iff_get.mp hx
    have hiL : i < L := by
      have h := hi
      rw [List.length_take] at h
      omega
    have hieq : x.time = lwTime (c :: rest) i := by
      rw [← hget, List.get_eq_getElem, List.getElem_take]
      unfold lwTime
      rw [List.getD_eq_getElem _ _ (by omega : i < (c :: rest).length)]
    rw [hieq]
    exact hlt i hiL
  have hchain : List.Chain (fun a x => (x.time - target).natAbs < (a.time - target).natAbs)
      c (rest.take (L - 1)) := by
    have hpwt : ((c :: rest).take L).Pairwise (fun a b => a.time < b.time) :=
      hsort.sublist (List.take_sublist L _)
    have hpw : ((c :: rest).take L).Pairwise
        (fun a x => (x.time - target).natAbs < (a.time - target).natAbs) := by
      refine hpwt.imp_of_mem ?_
      intro a b ha hb hab
      have h1 := hallpre a ha
      have h2 := hallpre b hb
      omega
    rw [← hpre] at hpw
    exact hpw.chain'
  rw [argminFold_getLast target _ c hchain]
  have hlrest : L - 1 ≤ rest.length := by
    have h := hLn
    simp only [List.length_cons] at h
    omega
  have hgl : (c :: rest.take (L - 1)).getLast (by simp) = (c :: rest).getD (L - 1) default := by
    rw [List.getLast_eq_getElem]
    have hplen : (c :: rest.take (L - 1)).length = L := by
      simp only [List.length_cons, List.length_take, Nat.min_eq_left hlrest]
      omega
    simp only [hplen]
    rw [List.getElem_of_eq hpre, List.getElem_take,
      ← List.getD_eq_getElem _ default (by omega : L - 1 < (c :: rest).length)]
  rw [hgl]
  have hsuf : rest.drop (L - 1) = (c :: rest).getD L default :: (c :: rest).drop (L + 1) := by
    have h1 : rest.drop (L - 1) = (c :: rest).drop L := by
      conv_rhs => rw [show L = (L - 1) + 1 from by omega]
      exact (List.drop_succ_cons).symm
    rw [h1, List.drop_eq_getElem_cons hLn, ← List.getD_eq_getElem _ default hLn]
  rw [hsuf, List.foldl_cons]
  have htail : ∀ x ∈ (c :: rest).drop (L + 1), lwTime (c :: rest) L < x.time := by
    intro x hx
    have hpwd : ((c :: rest).drop L).Pairwise (fun a b => a.time < b.time) :=
      hsort.sublist (List.drop_sublist L _)
    rw [List.drop_eq_getElem_cons hLn, ← List.getD_eq_getElem _ default hLn] at hpwd
    exact (List.pairwise_cons.mp hpwd).1 x hx
  have hbT : target < lwTime (c :: rest) L := hgt L (le_refl L) hLn
  have haT : lwTime (c :: rest) (L - 1) < target := hlt (L - 1) (by omega)
  by_cases hdl : (lwTime (c :: rest) (L - 1) - target).natAbs
      ≤ (lwTime (c :: rest) L - target).natAbs
  · rw [if_pos hdl]
    have hdl2 : ¬((((c :: rest).getD L default).time - target).natAbs <
        (((c :: rest).getD (L - 1) default).time - target).natAbs) := not_lt.mpr hdl
    have hstep : argminStep target ((c :: rest).getD (L - 1) default)
        ((c :: rest).getD L default) = (c :: rest).getD (L - 1) default := by
      unfold argminStep
      rw [if_neg hdl2]
    rw [hstep, argminFold_stay]
    · rfl
    · intro x hx
      have h1 := htail x hx
      show (lwTime (c :: rest) (L - 1) - target).natAbs ≤ (x.time - target).natAbs
      omega
  · rw [if_neg hdl]
    have hdl2 : (((c :: rest).getD L default).time - target).natAbs <
        (((c :: rest).getD (L - 1) default).time - target).natAbs := Nat.lt_of_not_le hdl
    have hstep : argminStep target ((c :: rest).getD (L - 1) default)
        ((c :: rest).getD L default) = (c :: rest).getD L default := by
      unfold argminStep
      rw [if_pos hdl2]
    rw [hstep, argminFold_stay]
    · rfl
    · intro x hx
      have h1 := htail x hx
      show (lwTime (c :: rest) L - target).natAbs ≤ (x.time - target).natAbs
      omega

/-- The specification value once the list is split into a below-target
prefix of length `L` and an above-target suffix. -/
theorem specNearest_split (cs : List LwCandle) (target : Int) (L : Nat)
    (hsort : cs.Pairwise (fun a b => a.time < b.time)) (hne : cs ≠ [])
    (hLn : L ≤ cs.length)
    (hlt : ∀ i : Nat, i < L → lwTime cs i < target)
    (hgt : ∀ i : Nat, L ≤ i → i < cs.length → target < lwTime cs i) :
    specNearest cs target =
      if L = 0 then some (lwTime cs 0)
      else if L = cs.length then some (lwTime cs (cs.length - 1))
      else
        if (lwTime cs (L - 1) - target).natAbs ≤ (lwTime cs L - target).natAbs
        then some (lwTime cs (L - 1)) else some (lwTime cs L) := by
  cases cs with
  | nil => exact absurd rfl hne
  | cons c rest =>
    by_cases hL0 : L = 0
    · subst hL0
      rw [if_pos rfl]
      exact specNearest_allAbove c rest target hsort (hgt 0 (le_refl 0) (by simp))
    · rw [if_neg hL0]
      by_cases hLlen : L = (c :: rest).length
      · rw [if_pos hLlen]
        have hall : ∀ x ∈ c :: rest, x.time < target := by
          intro x hx
          obtain ⟨⟨i, hi⟩, hget⟩ := List.mem_iff_get.mp hx
          have hx2 : x.time = lwTime (c :: rest) i := by
            rw [← hget, List.get_eq_getElem]
            unfold lwTime
            rw [List.getD_eq_getElem _ _ hi]
          rw [hx2]
          exact hlt i (by omega)
        rw [specNearest_allBelow c rest target hsort hall]
        congr 1
        rw [List.getLast_eq_getElem]
        unfold lwTime
        rw [List.getD_eq_getElem _ _
          (by simp : (c :: rest).length - 1 < (c :: rest).length)]
      · rw [if_neg hLlen]
        exact specNearest_middle c rest target L hsort (by omega) (by omega) hlt hgt

/-- C9: on a nonempty candle list sorted in strictly increasing time and a
finite `tsMs`, `nearestCandleTime` returns the time of the earliest candle
whose absolute distance to `floor(tsMs/1000)` is minimal (ties prefer the
earlier candle, which is the first minimizer); it returns `none` for an
empty list or a non-finite `tsMs`. -/
theorem nearestCandleTime_spec (cs : List LwCandle) (ms : Int)
    (hne : cs ≠ [])
    (hsort : cs.Pairwise (fun a b => a.time < b.time)) :
    nearestCandleTime cs (some ms) = specNearest cs (ms / 1000)
    ∧ nearestCandleTime [] (some ms) = none
    ∧ nearestCandleTime cs none = none := by
  refine ⟨?_, rfl, ?_⟩
  case refine_2 =>
    unfold nearestCandleTime
    split <;> rfl
  obtain ⟨c, rest, rfl⟩ : ∃ c' rest', cs = c' :: rest' := by
    cases cs with
    | nil => exact absurd rfl hne
    | cons a b => exact ⟨a, b, rfl⟩
  have hst := lwTime_strictMono (c :: rest) hsort
  have hlen1 : (c :: rest).length = rest.length + 1 := rfl
  unfold nearestCandleTime
  simp only [List.isEmpty_cons, Bool.false_eq_true, if_false]
  have hsplit := nearestLoopF_split (c :: rest) (ms / 1000) hst
    ((((c :: rest).length : Int) - 1) + 1 - 0).toNat 0 (((c :: rest).length : Int) - 1)
    (le_refl _) (le_refl 0) (by omega) (by omega)
    (fun i hiL => absurd hiL (by omega))
    (fun i h1 h2 => absurd h1 (by omega))
  rw [show nearestLoop (c :: rest) (ms / 1000) 0 (((c :: rest).length : Int) - 1)
      = nearestLoopF (c :: rest) (ms / 1000)
          ((((c :: rest).length : Int) - 1) + 1 - 0).toNat 0
          (((c :: rest).length : Int) - 1) from rfl]
  rcases hres : nearestLoopF (c :: rest) (ms / 1000)
      ((((c :: rest).length : Int) - 1) + 1 - 0).toNat 0
      (((c :: rest).length : Int) - 1) with t | L
  · rw [hres] at hsplit
    obtain ⟨ht, i, hin, hieq⟩ := hsplit
    subst ht
    exact (specNearest_exact (c :: rest) (ms / 1000) i hin hieq).symm
  · rw [hres] at hsplit
    obtain ⟨h0L, hLn, hltL, hgtL⟩ := hsplit
    have hLcast : ((L.toNat : Int)) = L := Int.toNat_of_nonneg h0L
    rw [specNearest_split (c :: rest) (ms / 1000) L.toNat hsort hne
      (by omega) (fun i hi => hltL i (by omega)) (fun i hi1 hi2 => hgtL i (by omega) hi2)]
    by_cases hL0 : L.toNat = 0
    · have hleft : max 0 (min (((c :: rest).length : Int) - 1) (L - 1)) = 0 := by omega
      have hright : max 0 (min (((c :: rest).length : Int) - 1) L) = 0 := by omega
      rw [if_pos hL0]
      simp only [hleft, hright, Int.toNat_zero, le_refl, if_true]
    · by_cases hLlen : L.toNat = (c :: rest).length
      · have hleft : max 0 (min (((c :: rest).length : Int) - 1) (L - 1))
            = ((c :: rest).length : Int) - 1 := by omega
        have hright : max 0 (min (((c :: rest).length : Int) - 1) L)
            = ((c :: rest).length : Int) - 1 := by omega
        have hidx : ((((c :: rest).length : Int)) - 1).toNat = (c :: rest).length - 1 := by
          omega
        rw [if_neg hL0, if_pos hLlen]
        simp only [hleft, hright, hidx, le_refl, if_true]
      · have hleft : max 0 (min (((c :: rest).length : Int) - 1) (L - 1)) = L - 1 := by
          omega
        have hright : max 0 (min (((c :: rest).length : Int) - 1) L) = L := by omega
        have hidx1 : (L - 1).toNat = L.toNat - 1 := by omega
        rw [if_neg hL0, if_neg hLlen]
        simp only [hleft, hright, hidx1]

def demoCandles : List LwCandle := [{ time := 10 }, { time := 20 }, { time := 30 }]

/-- Closed instance of the nearest-candle theorem on a concrete sorted
list: 19000 ms targets second 19, whose nearest candle time is 20. -/
theorem nearestCandleTime_witness :
    nearestCandleTime demoCandles (some 19000) = specNearest demoCandles (19000 / 1000)
    ∧ nearestCandleTime demoCandles (some 19000) = some 20 :=
  ⟨(nearestCandleTime_spec demoCandles 19000 (by decide) (by decide)).1, by decide⟩

end Dashboard
